import Mathlib

/-!
# Verification of the dot-js reactive core

A shallow embedding, in Lean 4, of the reactive-signal runtime
(`signal.js`), the keyed list reconciler (`list.js`) and the virtual
scrolling list (`virtual-list.js`) of the dot-js repository, together
with proofs and refutations of the specified properties.

JavaScript reference equality (`===`) on the values that flow through
signals is modelled by the type `Val`: a primitive carries its value, an
object reference carries an identity token, and `===` is decidable
equality on `Val` (two distinct references are different even when the
objects they denote would be deeply equal).
-/

namespace DotJs

/-- A JavaScript value as far as `===` is concerned: a primitive compares
by value, an object reference compares by identity token. -/
inductive Val where
  | prim (n : ℤ)
  | ref (id : ℕ)
deriving DecidableEq

/-! ## Virtual list (`virtual-list.js`)

`createVirtualList` destructures its options (defaulting `buffer` to 5),
tracks the scroll offset in a signal, computes the visible index window,
and maintains a cache `renderedNodes : Map index ↦ {node, item}` plus the
children of the `content` element.  Scroll offsets and pixel sizes are
JavaScript numbers; every value that actually arises is an integer, so
they are embedded as `ℕ`/`ℤ`, with `Math.floor`/`Math.ceil` taken over
`ℚ`. -/

/-- The `{ startIndex, endIndex }` record returned by `visibleRange`. -/
structure VRange where
  startIndex : ℤ
  endIndex : ℤ
deriving DecidableEq

/-- The visible-range computation of `virtual-list.js`:
`firstVisible = Math.floor(currentScrollTop / itemHeight)`,
`visibleCount = Math.ceil(containerHeight / itemHeight)`,
`startIndex = Math.max(0, firstVisible - buffer)`,
`endIndex = Math.min(itemCount, firstVisible + visibleCount + buffer)`. -/
def visibleRange (itemCount currentScrollTop itemHeight containerHeight buffer : ℕ) :
    VRange :=
  let firstVisible : ℤ := ⌊(currentScrollTop : ℚ) / (itemHeight : ℚ)⌋
  let visibleCount : ℤ := ⌈(containerHeight : ℚ) / (itemHeight : ℚ)⌉
  { startIndex := max 0 (firstVisible - (buffer : ℤ))
    endIndex := min (itemCount : ℤ) (firstVisible + visibleCount + (buffer : ℤ)) }

/-- The reference definition of the visible range as the specification
words it: `[max(0, floor(offset/itemSize) − buffer),
min(count, floor(offset/itemSize) + ceil(viewportSize/itemSize) + buffer)]`. -/
def visibleRangeSpec (count offset itemSize viewportSize buffer : ℕ) : VRange :=
  { startIndex := max 0 (⌊(offset : ℚ) / (itemSize : ℚ)⌋ - (buffer : ℤ))
    endIndex := min (count : ℤ)
      (⌊(offset : ℚ) / (itemSize : ℚ)⌋ + ⌈(viewportSize : ℚ) / (itemSize : ℚ)⌉ + (buffer : ℤ)) }

/-- The options object accepted by `createVirtualList`; `buffer := none`
models an options object without a `buffer` property. -/
structure VLOptions where
  itemHeight : ℤ
  containerHeight : ℤ
  buffer : Option ℤ
deriving DecidableEq

/-- The configuration captured by the destructuring at the top of
`createVirtualList`. -/
structure VLConfig where
  itemHeight : ℤ
  containerHeight : ℤ
  buffer : ℤ
deriving DecidableEq

/-- The construction prologue of `createVirtualList` (`virtual-list.js`
lines 15–28): it destructures the options, defaulting `buffer` to `5`,
and proceeds unconditionally — the source contains no validation and no
`throw`, so no input makes it fail.  The result type is `Except` so that
"construction fails" is expressible; the source only ever reaches
`Except.ok`. -/
def createVirtualListConstruct (options : VLOptions) : Except String VLConfig :=
  Except.ok
    { itemHeight := options.itemHeight
      containerHeight := options.containerHeight
      buffer := options.buffer.getD 5 }

/-- A cached entry of the virtual list: `{ node, item }` where `node` is a
display-tree node identity and `item` the item rendered into it. -/
structure VEntry where
  node : ℕ
  item : Val
deriving DecidableEq

/-- The `renderedNodes` map of `createVirtualList`: index ↦ entry, in
insertion order, as a JavaScript `Map` iterates. -/
abbrev VCache := List (ℤ × VEntry)

/-- `Map.prototype.get`. -/
def getA {κ β : Type} [DecidableEq κ] (i : κ) : List (κ × β) → Option β
  | [] => none
  | (j, e) :: rest => if j = i then some e else getA i rest

/-- `Map.prototype.set`: replaces in place when the key is present
(keeping its position), appends otherwise. -/
def setA {κ β : Type} [DecidableEq κ] (i : κ) (e : β) : List (κ × β) → List (κ × β)
  | [] => [(i, e)]
  | (j, f) :: rest => if j = i then (j, e) :: rest else (j, f) :: setA i e rest

/-- `Map.prototype.delete`. -/
def delA {κ β : Type} [DecidableEq κ] (i : κ) : List (κ × β) → List (κ × β)
  | [] => []
  | (j, f) :: rest => if j = i then rest else (j, f) :: delA i rest

/-- The mutable state the rendering effect of `createVirtualList` works
on: the `renderedNodes` cache, the children of the `content` element
(node identities, document order), and a counter supplying the identity
of the next wrapper `document.createElement("div")` creates. -/
structure VLState where
  renderedNodes : VCache
  content : List ℕ
  nextNode : ℕ
deriving DecidableEq

/-- The removal loop of the rendering effect: for each collected stale
index, detach its node from the display tree (`removeChild`, a no-op if
the node has no parent) and drop the cache entry. -/
def removeIndices : List ℤ → VLState → VLState
  | [], s => s
  | i :: rest, s =>
    match getA i s.renderedNodes with
    | none => removeIndices rest s
    | some e =>
        removeIndices rest
          { s with
            content := s.content.erase e.node
            renderedNodes := delA i s.renderedNodes }

/-- One iteration of the render loop at index `i`: skip when
`itemsArray[i]` is `undefined`; if a cached entry exists and its item is
identical (`===`), only the position transform is touched; otherwise a
fresh wrapper node is created, the old node (if any) detached, the
wrapper appended to `content`, and the cache entry set. -/
def renderOne (items : List Val) (i : ℤ) (s : VLState) : VLState :=
  match (if i < 0 then none else items.get? i.toNat) with
  | none => s
  | some item =>
    match getA i s.renderedNodes with
    | some existing =>
        if existing.item = item then s
        else
          { renderedNodes := setA i ⟨s.nextNode, item⟩ s.renderedNodes
            content := (s.content.erase existing.node) ++ [s.nextNode]
            nextNode := s.nextNode + 1 }
    | none =>
        { renderedNodes := setA i ⟨s.nextNode, item⟩ s.renderedNodes
          content := s.content ++ [s.nextNode]
          nextNode := s.nextNode + 1 }

/-- The indices visited by `for (let i = startIndex; i < endIndex; i++)`. -/
def idxList (a b : ℤ) : List ℤ :=
  (List.range (b - a).toNat).map (fun k : ℕ => a + (k : ℤ))

/-- One run of the rendering effect of `createVirtualList`
(`virtual-list.js` lines 100–170): recompute the visible range, collect
and remove the cache entries outside it, then render the indices inside
it. -/
def renderPass (itemHeight containerHeight buffer : ℕ) (items : List Val)
    (scrollTop : ℕ) (s : VLState) : VLState :=
  let r := visibleRange items.length scrollTop itemHeight containerHeight buffer
  let toRemove := (s.renderedNodes.map Prod.fst).filter
    (fun i => decide (i < r.startIndex ∨ r.endIndex ≤ i))
  let s1 := removeIndices toRemove s
  (idxList r.startIndex r.endIndex).foldl (fun t i => renderOne items i t) s1

/-- Concrete items for evaluating the rendering effect: twenty distinct
primitive values. -/
def c5items : List Val := (List.range 20).map (fun n : ℕ => Val.prim (n : ℤ))

/-- A freshly created virtual list: empty cache, empty content, no node
allocated yet. -/
def c5s0 : VLState := ⟨[], [], 0⟩

/-! ## The reactive runtime (`signal.js`)

`signal.js` keeps a module-level `effectStack`; `signal(initialValue)`
closes over a `value` and a `subscribers` Set; `effect(fn)` builds an
`execute` closure carrying a `running` flag and a `dependencies` set.
The embedding names cells and effect handles by natural numbers and
carries the whole runtime in one state record.  Effect callbacks are
embedded as a small command language: reading a cell, writing a cell
(with a plain value or an updater function, matching the `typeof`
dispatch in `write`), and branching on a read value — enough to express
conditional reads and writes from inside an effect.

A ghost event log records, without influencing execution, each
dependency-registering read (`Ev.read`), each value actually stored by a
write (`Ev.store`), each call the notification loop makes (`Ev.invoke`,
tagged with the serial number of the `write` call that issued it), each
handle execution that passes the re-entrancy guard (`Ev.run`), and the
`console.warn` of the guard (`Ev.warn`). -/

/-- Cell (signal) identity. -/
abbrev CId := ℕ

/-- Effect-handle identity. -/
abbrev HId := ℕ

/-- Ghost log events (instrumentation only). -/
inductive Ev where
  | read (h : HId) (c : CId)
  | store (c : CId) (v : Val)
  | invoke (w : ℕ) (h : HId)
  | run (h : HId)
  | warn (h : HId)
deriving DecidableEq

/-- The argument of a setter call: a plain value, or an updater function
(the `typeof newValue === "function"` case). -/
inductive Upd where
  | val (v : Val)
  | fn (f : Val → Val)

/-- `typeof newValue === "function" ? newValue(value) : newValue`. -/
def resolveUpd : Upd → Val → Val
  | .val v, _ => v
  | .fn f, cur => f cur

/-- An effect callback: a sequence of reads, writes and read-branches. -/
inductive Cmd where
  | readC (c : CId)
  | writeC (c : CId) (u : Upd)
  | ifRead (c : CId) (thn els : List Cmd)

/-- A signal's closure state: `value` and the insertion-ordered
`subscribers` Set. -/
structure Cell where
  value : Val
  subscribers : List HId

/-- An effect handle (the `execute` closure): its callback, the
`running` flag and the `dependencies` record (the cells whose subscriber
sets it is registered in). -/
structure Handle where
  body : List Cmd
  running : Bool
  dependencies : List CId

/-- The whole runtime state: all cells, all handles, the module-level
`effectStack` (head = top), the ghost log, and a ghost serial number for
`write` calls (used only to tag `Ev.invoke`). -/
structure St where
  cells : CId → Cell
  handles : HId → Handle
  effectStack : List HId
  log : List Ev
  writeCount : ℕ

/-- JavaScript `Set.prototype.add`: append if absent. -/
def addIfAbsent {α : Type} [DecidableEq α] (a : α) (l : List α) : List α :=
  if a ∈ l then l else l ++ [a]

/-- `read()`: return the current value; if an effect is executing
(top of `effectStack`), register it as a subscriber and record this cell
in its dependency record. -/
def readCell (c : CId) (s : St) : Val × St :=
  match s.effectStack.head? with
  | none => ((s.cells c).value, s)
  | some h =>
      ((s.cells c).value,
        { s with
          cells := fun c' =>
            if c' = c then
              { s.cells c with subscribers := addIfAbsent h (s.cells c).subscribers }
            else s.cells c'
          handles := fun h' =>
            if h' = h then
              { s.handles h with dependencies := addIfAbsent c (s.handles h).dependencies }
            else s.handles h'
          log := s.log ++ [Ev.read h c] })

/-- `cleanup(effect)`: remove the handle from every subscriber set in
its dependency record, then clear the record. -/
def cleanup (h : HId) (s : St) : St :=
  { s with
    cells := fun c =>
      if c ∈ (s.handles h).dependencies then
        { s.cells c with subscribers := (s.cells c).subscribers.erase h }
      else s.cells c
    handles := fun h' =>
      if h' = h then { s.handles h with dependencies := [] } else s.handles h' }

/-- Set a handle's `running` flag. -/
def setRunning (h : HId) (b : Bool) (s : St) : St :=
  { s with
    handles := fun h' => if h' = h then { s.handles h' with running := b } else s.handles h' }

/-- The pending work of the interpreter: run a command list (an effect
body), a single command, a `write` call, the notification loop over a
subscriber snapshot, or an `execute` call on a handle. -/
inductive Req where
  | cmds (cs : List Cmd)
  | cmd (c : Cmd)
  | write (c : CId) (u : Upd)
  | notify (w : ℕ) (hs : List HId)
  | exec (h : HId)

/-- Fuel-indexed interpreter for `signal.js`.  `none` means the fuel ran
out; every theorem is conditional on successful termination.

* `.cmds`/`.cmd` — run an effect body, command by command;
* `.write c u` — `write(newValue)`: resolve the updater against the
  current value, compare by `===`; when different, store the value and
  run the notification loop over a snapshot (`Array.from`) of the
  subscriber set;
* `.notify` — `forEach(fn => { if (!fn.running) fn() })`;
* `.exec h` — `execute()`: skip (with `console.warn`) when already
  running; otherwise clear stale dependencies, set `running`, push onto
  the effect stack, run the body, then pop and reset `running` on the
  way out. -/
def runReq : ℕ → Req → St → Option St
  | 0, _, _ => none
  | _ + 1, .cmds [], s => some s
  | f + 1, .cmds (c :: cs), s =>
      (runReq f (.cmd c) s).bind (fun s1 => runReq f (.cmds cs) s1)
  | _ + 1, .cmd (.readC c), s => some (readCell c s).2
  | f + 1, .cmd (.ifRead c t e), s =>
      let p := readCell c s
      if p.1 = Val.prim 0 then runReq f (.cmds e) p.2 else runReq f (.cmds t) p.2
  | f + 1, .cmd (.writeC c u), s => runReq f (.write c u) s
  | f + 1, .write c u, s =>
      let v := (s.cells c).value
      let nv := resolveUpd u v
      if nv = v then some s
      else
        let w := s.writeCount
        let s1 : St :=
          { s with
            cells := fun c' => if c' = c then { s.cells c with value := nv } else s.cells c'
            writeCount := w + 1
            log := s.log ++ [Ev.store c nv] }
        runReq f (.notify w (s.cells c).subscribers) s1
  | f + 1, .notify w (h :: t), s =>
      if (s.handles h).running then runReq f (.notify w t) s
      else
        (runReq f (.exec h) { s with log := s.log ++ [Ev.invoke w h] }).bind
          (fun s1 => runReq f (.notify w t) s1)
  | _ + 1, .notify _ [], s => some s
  | f + 1, .exec h, s =>
      if (s.handles h).running then some { s with log := s.log ++ [Ev.warn h] }
      else
        let s1 := cleanup h s
        let s2 : St :=
          { setRunning h true s1 with
            effectStack := h :: s1.effectStack
            log := s1.log ++ [Ev.run h] }
        (runReq f (.cmds (s.handles h).body) s2).map
          (fun s3 => setRunning h false { s3 with effectStack := s3.effectStack.tail })

/-- `refresh()` of the virtual list: `setScrollTop(container.scrollTop)`
— a plain setter call on the scroll-offset signal with the container's
current scroll position. -/
def refreshReq (scrollCell : CId) (domScrollTop : ℤ) : Req :=
  .write scrollCell (Upd.val (Val.prim domScrollTop))

/-- The handles a given `write` call's notification loop invoked, read
off the ghost log: the `Ev.invoke` events carrying that write's serial
number, in order. -/
def invokesOf (w : ℕ) (d : List Ev) : List HId :=
  d.filterMap (fun e =>
    match e with
    | Ev.invoke w' h => if w' = w then some h else none
    | _ => none)

/-- The structural invariant `signal.js` maintains: a handle registered
in a cell's subscriber set records that cell in its dependency record
(so `cleanup` really unsubscribes it everywhere), and — as JavaScript
`Set`s guarantee — subscriber sets and dependency records are free of
duplicates. -/
def WF (s : St) : Prop :=
  (∀ h c, h ∈ (s.cells c).subscribers → c ∈ (s.handles h).dependencies) ∧
  (∀ c, (s.cells c).subscribers.Nodup) ∧
  (∀ h, (s.handles h).dependencies.Nodup)

/-- An updater function: adds one to a primitive, fixes references. -/
def bumpVal : Val → Val
  | Val.prim n => Val.prim (n + 1)
  | v => v

/-- A runtime with one signal (cell 0, value `prim 0`) subscribed to by
two idle effect handles 0 and 1 with empty callbacks, in that
registration order. -/
def c2s0 : St :=
  { cells := fun c => if c = 0 then ⟨Val.prim 0, [0, 1]⟩ else ⟨Val.prim 0, []⟩
    handles := fun _ => ⟨[], false, []⟩
    effectStack := []
    log := []
    writeCount := 0 }

/-- The virtual list after mounting, with an unchanged scroll offset:
cell 0 is the scroll-offset signal holding `prim 0` (equal to
`container.scrollTop = 0`), subscribed to by the rendering effect
(handle 0, whose callback reads the offset). -/
def c9s0 : St :=
  { cells := fun c => if c = 0 then ⟨Val.prim 0, [0]⟩ else ⟨Val.prim 0, []⟩
    handles := fun h => if h = 0 then ⟨[Cmd.readC 0], false, [0]⟩ else ⟨[], false, []⟩
    effectStack := []
    log := []
    writeCount := 0 }

/-- The dependency-shrink scenario: handle 0's callback reads cell 0
and reads cell 1 only when cell 0 holds a non-zero primitive.  The
snapshot is taken after a previous run that took the reading branch
(subscribed to both cells); cell 0 now holds `prim 0`, so the next run
reads only cell 0. -/
def c1s0 : St :=
  { cells := fun c =>
      if c = 0 then ⟨Val.prim 0, [0]⟩
      else if c = 1 then ⟨Val.prim 1, [0]⟩
      else ⟨Val.prim 0, []⟩
    handles := fun h =>
      if h = 0 then ⟨[Cmd.ifRead 0 [Cmd.readC 1] []], false, [0, 1]⟩
      else ⟨[], false, []⟩
    effectStack := []
    log := []
    writeCount := 0 }

/-- An idle effect whose callback reads cell 0 and then writes cell 0
through the updater `bumpVal` — the self-triggering effect of C4. -/
def c4s0 : St :=
  { cells := fun _ => ⟨Val.prim 0, []⟩
    handles := fun h =>
      if h = 0 then ⟨[Cmd.readC 0, Cmd.writeC 0 (Upd.fn bumpVal)], false, []⟩
      else ⟨[], false, []⟩
    effectStack := []
    log := []
    writeCount := 0 }

/-- A runtime snapshot taken while handle 0 is mid-execution (running
flag set, on the effect stack), subscribed to cell 0. -/
def c4w0 : St :=
  { cells := fun c => if c = 0 then ⟨Val.prim 0, [0]⟩ else ⟨Val.prim 0, []⟩
    handles := fun h =>
      if h = 0 then ⟨[Cmd.readC 0, Cmd.writeC 0 (Upd.fn bumpVal)], true, [0]⟩
      else ⟨[], false, []⟩
    effectStack := [0]
    log := []
    writeCount := 0 }

/-! ## The keyed list reconciler (`list.js`)

`list(signalOrArray, keyFn, renderFn)` keeps a `keyToNode` map from key
to `{ node, item }` and two comment markers delimiting its region of the
display tree.  Keys are whatever `keyFn` returns (compared with
JavaScript Map/Set semantics), so they are embedded as `Val`; items are
`Val` too and `keyFn : Val → Val` is an arbitrary function.  The parent
element's child list is a list of node identities; `renderFn` calls are
modelled as allocation of a fresh node identity from a counter. -/

/-- A `keyToNode` entry: `{ node, item }`. -/
structure LEntry where
  node : ℕ
  item : Val
deriving DecidableEq

/-- The `keyToNode` map, in `Map` insertion order. -/
abbrev KMap := List (Val × LEntry)

/-- The reconciler's state: the map, the parent's child list (document
order, containing the markers), and the fresh-node counter standing for
`renderFn`. -/
structure ListState where
  keyToNode : KMap
  children : List ℕ
  nextNode : ℕ
deriving DecidableEq

/-- `node.nextSibling` within a child list: the element following the
first occurrence of `n`, `none` when `n` is last or absent. -/
def nextSibling (n : ℕ) : List ℕ → Option ℕ
  | [] => none
  | a :: rest => if a = n then rest.head? else nextSibling n rest

/-- `parent.insertBefore(target, ref)`: detach `target` from its current
position if attached, then insert it before `ref` (before the first
occurrence of `ref`; at the end when `ref` is `null`).  A `ref` that is
not a child cannot occur in the reconciler (the cursor is always a
current child or `null`). -/
def insertBeforeRef (target : ℕ) (ref : Option ℕ) (ch : List ℕ) : List ℕ :=
  let ch2 := ch.erase target
  match ref with
  | none => ch2 ++ [target]
  | some r => ch2.takeWhile (fun x => decide (x ≠ r)) ++ target :: ch2.dropWhile (fun x => decide (x ≠ r))

/-- Step 1 of `reconcile`: iterate the entries of `keyToNode` (a
snapshot of the map), removing the node and the map entry of every key
absent from the new key set. -/
def removeStale (newKeys : List Val) : KMap → ListState → ListState
  | [], s => s
  | (k, e) :: rest, s =>
      if k ∈ newKeys then removeStale newKeys rest s
      else
        removeStale newKeys rest
          { s with
            children := s.children.erase e.node
            keyToNode := delA k s.keyToNode }

/-- Step 2 of `reconcile`: build `newKeyToNode` by walking the items
with their keys; reuse the existing entry for a known key (updating its
`item` reference), otherwise call `renderFn` — allocate a fresh node —
and register it.  Returns the new map and the advanced node counter. -/
def buildNew (old : KMap) : List (Val × Val) → KMap → ℕ → KMap × ℕ
  | [], acc, counter => (acc, counter)
  | (item, k) :: rest, acc, counter =>
    match getA k old with
    | some entry => buildNew old rest (setA k ⟨entry.node, item⟩ acc) counter
    | none => buildNew old rest (setA k ⟨counter, item⟩ acc) (counter + 1)

/-- Step 3 of `reconcile`: walk the new key order with a cursor starting
at `startMarker.nextSibling`; when the cursor is not the expected node,
`insertBefore` it at the cursor, otherwise advance the cursor. -/
def reposition (m : KMap) : List Val → Option ℕ → List ℕ → List ℕ
  | [], _, ch => ch
  | k :: rest, cursor, ch =>
    match getA k m with
    | none => reposition m rest cursor ch
    | some entry =>
        if cursor = some entry.node then
          reposition m rest (nextSibling entry.node ch) ch
        else
          reposition m rest cursor (insertBeforeRef entry.node cursor ch)

/-- `reconcile(items)` of `list.js` (lines 453–509): if the start marker
is not mounted, do nothing (`return false`); otherwise remove stale
keys, create-or-reuse the entries for the new keys, reposition the
nodes, and adopt the new map. -/
def reconcile (keyFn : Val → Val) (startM : ℕ) (items : List Val) (s : ListState) :
    ListState :=
  if startM ∈ s.children then
    let newKeys := items.map keyFn
    let s1 := removeStale newKeys s.keyToNode s
    let built := buildNew s1.keyToNode (items.zip newKeys) [] s1.nextNode
    let ch := reposition built.1 newKeys (nextSibling startM s1.children) s1.children
    { keyToNode := built.1, children := ch, nextNode := built.2 }
  else s

/-- A concrete mounted list state: markers 0 and 1, two keyed rows
(keys `1` and `2` on nodes 2 and 3), node counter at 4. -/
def tLS : ListState :=
  { keyToNode := [(Val.prim 1, ⟨2, Val.prim 1⟩), (Val.prim 2, ⟨3, Val.prim 2⟩)]
    children := [0, 2, 3, 1]
    nextNode := 4 }

/-! ## Arithmetic evaluation helpers -/

/-- `Math.floor` of a quotient of naturals is natural division. -/
theorem floorQ_natCast_div (o H : ℕ) : ⌊(o : ℚ) / (H : ℚ)⌋ = ((o : ℤ) / (H : ℤ)) :=
  Rat.floor_intCast_div_natCast o H

/-- `Math.ceil` of a quotient of naturals, as integer division. -/
theorem ceilQ_natCast_div (V H : ℕ) : ⌈(V : ℚ) / (H : ℚ)⌉ = -((-(V : ℤ)) / (H : ℤ)) := by
  have h1 : -((V : ℚ) / (H : ℚ)) = ((-(V : ℤ) : ℤ) : ℚ) / ((H : ℕ) : ℚ) := by
    push_cast
    ring
  have h2 := Int.floor_neg (α := ℚ) (a := (V : ℚ) / (H : ℚ))
  rw [h1, Rat.floor_intCast_div_natCast] at h2
  omega

/-- `visibleRange`, rewritten into pure integer arithmetic so that
concrete instances evaluate by `decide`. -/
theorem visibleRange_eval (count o H V b : ℕ) :
    visibleRange count o H V b =
      { startIndex := max 0 ((o : ℤ) / (H : ℤ) - (b : ℤ))
        endIndex := min (count : ℤ) ((o : ℤ) / (H : ℤ) + -((-(V : ℤ)) / (H : ℤ)) + (b : ℤ)) } := by
  simp only [visibleRange, floorQ_natCast_div, ceilQ_natCast_div]

/-! ## Map and list helper lemmas -/

section MapLemmas

variable {κ β : Type} [DecidableEq κ]

theorem delA_sublist (i : κ) (m : List (κ × β)) : List.Sublist (delA i m) m := by
  induction m with
  | nil => simp [delA]
  | cons p rest ih =>
      obtain ⟨j, f⟩ := p
      simp only [delA]
      split
      · exact (List.sublist_cons_self _ _)
      · exact ih.cons₂ _

theorem mem_keys_delA (i j : κ) (m : List (κ × β)) :
    j ∈ (delA i m).map Prod.fst → j ∈ m.map Prod.fst :=
  fun h => (((delA_sublist i m).map Prod.fst).mem h)

theorem not_mem_keys_delA (i : κ) (m : List (κ × β))
    (hn : (m.map Prod.fst).Nodup) : i ∉ (delA i m).map Prod.fst := by
  induction m with
  | nil => simp [delA]
  | cons p rest ih =>
      obtain ⟨j, f⟩ := p
      simp only [List.map_cons, List.nodup_cons] at hn
      simp only [delA]
      split
      · rename_i hj
        subst hj
        simpa using hn.1
      · rename_i hj
        simp only [List.map_cons, List.mem_cons]
        rintro (h | h)
        · exact hj h.symm
        · exact ih hn.2 h

theorem getA_delA_ne (i j : κ) (m : List (κ × β)) (hij : j ≠ i) :
    getA j (delA i m) = getA j m := by
  induction m with
  | nil => simp [delA]
  | cons p rest ih =>
      obtain ⟨k, f⟩ := p
      by_cases hki : k = i
      · subst hki
        have hkj : ¬ k = j := fun h => hij (h ▸ rfl)
        simp [delA, getA, hkj]
      · by_cases hkj : k = j
        · subst hkj
          simp [delA, getA, hki]
        · simp [delA, getA, hki, hkj, ih]

theorem mem_of_getA (i : κ) (e : β) (m : List (κ × β)) :
    getA i m = some e → (i, e) ∈ m := by
  induction m with
  | nil => simp [getA]
  | cons p rest ih =>
      obtain ⟨k, f⟩ := p
      by_cases hki : k = i
      · subst hki
        intro h
        simp only [getA, if_true, eq_self_iff_true] at h
        obtain rfl : f = e := by injection h
        exact List.mem_cons.2 (Or.inl rfl)
      · simp only [getA, if_neg hki, List.mem_cons]
        exact fun h => Or.inr (ih h)

theorem getA_eq_of_mem (i : κ) (e : β) (m : List (κ × β))
    (hn : (m.map Prod.fst).Nodup) (hm : (i, e) ∈ m) : getA i m = some e := by
  induction m with
  | nil => simp at hm
  | cons p rest ih =>
      obtain ⟨k, f⟩ := p
      simp only [List.map_cons, List.nodup_cons] at hn
      rcases List.mem_cons.1 hm with h | h
      · rw [← h]
        simp [getA]
      · have hki : ¬ k = i := by
          rintro rfl
          exact hn.1 (List.mem_map.2 ⟨(k, e), h, rfl⟩)
        simp only [getA, if_neg hki]
        exact ih hn.2 h

theorem mem_keys_setA (i j : κ) (e : β) (m : List (κ × β)) :
    j ∈ (setA i e m).map Prod.fst → j = i ∨ j ∈ m.map Prod.fst := by
  induction m with
  | nil => simp [setA]
  | cons p rest ih =>
      obtain ⟨k, f⟩ := p
      by_cases hki : k = i
      · subst hki
        simp [setA]
      · simp only [setA, if_neg hki, List.map_cons, List.mem_cons]
        rintro (rfl | h)
        · exact Or.inr (Or.inl rfl)
        · rcases ih h with h | h
          · exact Or.inl h
          · exact Or.inr (Or.inr h)

theorem nodup_keys_setA (i : κ) (e : β) (m : List (κ × β))
    (hn : (m.map Prod.fst).Nodup) : ((setA i e m).map Prod.fst).Nodup := by
  induction m with
  | nil => simp [setA]
  | cons p rest ih =>
      obtain ⟨k, f⟩ := p
      simp only [List.map_cons, List.nodup_cons] at hn
      by_cases hki : k = i
      · subst hki
        simpa [setA] using hn
      · simp only [setA, if_neg hki, List.map_cons, List.nodup_cons]
        refine ⟨?_, ih hn.2⟩
        intro hmem
        rcases mem_keys_setA i k e rest hmem with h | h
        · exact hki h
        · exact hn.1 h

end MapLemmas

theorem length_le_toNat_of_nodup (l : List ℤ) (a b : ℤ) (hn : l.Nodup)
    (hb : ∀ x ∈ l, a ≤ x ∧ x < b) : l.length ≤ (b - a).toNat := by
  have h1 : l.toFinset ⊆ Finset.Ico a b := by
    intro x hx
    rw [List.mem_toFinset] at hx
    exact Finset.mem_Ico.2 (hb x hx)
  have h2 := Finset.card_le_card h1
  rw [List.toFinset_card_of_nodup hn, Int.card_Ico] at h2
  exact h2

theorem idxList_mem_bounds (a b j : ℤ) (h : j ∈ idxList a b) : a ≤ j ∧ j < b := by
  simp only [idxList, List.mem_map, List.mem_range] at h
  obtain ⟨k, hk, rfl⟩ := h
  constructor
  · omega
  · omega

/-! ## The rendering effect of the virtual list -/

theorem removeIndices_frame (idxs : List ℤ) : ∀ (s : VLState),
    List.Sublist (removeIndices idxs s).renderedNodes s.renderedNodes ∧
    List.Sublist (removeIndices idxs s).content s.content ∧
    (removeIndices idxs s).nextNode = s.nextNode := by
  induction idxs with
  | nil => exact fun s => ⟨List.Sublist.refl _, List.Sublist.refl _, rfl⟩
  | cons i rest ih =>
      intro s
      simp only [removeIndices]
      cases hget : getA i s.renderedNodes with
      | none => exact ih s
      | some e =>
          obtain ⟨h1, h2, h3⟩ := ih
            { s with
              content := s.content.erase e.node
              renderedNodes := delA i s.renderedNodes }
          exact ⟨h1.trans (delA_sublist i s.renderedNodes),
            h2.trans (List.erase_sublist _ _), h3⟩

theorem removeIndices_removes (idxs : List ℤ) : ∀ (s : VLState),
    (s.renderedNodes.map Prod.fst).Nodup → s.content.Nodup →
    ∀ i ∈ idxs, ∀ e, getA i s.renderedNodes = some e →
      i ∉ ((removeIndices idxs s).renderedNodes.map Prod.fst) ∧
      e.node ∉ (removeIndices idxs s).content := by
  induction idxs with
  | nil =>
      intro s _ _ i hi
      simp at hi
  | cons j rest ih =>
      intro s hkeys hcont i hi e hget
      simp only [removeIndices]
      rcases List.mem_cons.1 hi with rfl | hmem
      · -- the head is the index being removed
        rw [hget]
        set s1 : VLState :=
          { s with
            content := s.content.erase e.node
            renderedNodes := delA i s.renderedNodes } with hs1
        obtain ⟨hsub1, hsub2, _⟩ := removeIndices_frame rest s1
        constructor
        · intro hmem2
          exact not_mem_keys_delA i s.renderedNodes hkeys
            ((hsub1.map Prod.fst).mem hmem2)
        · intro hmem2
          exact hcont.not_mem_erase (hsub2.mem hmem2)
      · -- the index is removed later in the loop
        cases hgj : getA j s.renderedNodes with
        | none => exact ih s hkeys hcont i hmem e hget
        | some f =>
            by_cases hij : i = j
            · subst hij
              rw [hget] at hgj
              obtain rfl : e = f := by injection hgj
              set s1 : VLState :=
                { s with
                  content := s.content.erase e.node
                  renderedNodes := delA i s.renderedNodes } with hs1
              obtain ⟨hsub1, hsub2, _⟩ := removeIndices_frame rest s1
              constructor
              · intro hmem2
                exact not_mem_keys_delA i s.renderedNodes hkeys
                  ((hsub1.map Prod.fst).mem hmem2)
              · intro hmem2
                exact hcont.not_mem_erase (hsub2.mem hmem2)
            · set s1 : VLState :=
                { s with
                  content := s.content.erase f.node
                  renderedNodes := delA j s.renderedNodes } with hs1
              have hk1 : (s1.renderedNodes.map Prod.fst).Nodup :=
                hkeys.sublist ((delA_sublist j s.renderedNodes).map Prod.fst)
              have hc1 : s1.content.Nodup := hcont.sublist (List.erase_sublist _ _)
              have hg1 : getA i s1.renderedNodes = some e := by
                rw [hs1]
                simpa [getA_delA_ne j i s.renderedNodes hij] using hget
              exact ih s1 hk1 hc1 i hmem e hg1

theorem renderOne_keys (items : List Val) (i : ℤ) (t : VLState) :
    ∀ j ∈ ((renderOne items i t).renderedNodes.map Prod.fst),
      j = i ∨ j ∈ t.renderedNodes.map Prod.fst := by
  intro j hj
  unfold renderOne at hj
  rcases hit : (if i < 0 then none else items.get? i.toNat) with _ | item <;>
    simp only [hit] at hj
  · exact Or.inr hj
  · rcases hg : getA i t.renderedNodes with _ | ex <;> simp only [hg] at hj
    · exact mem_keys_setA i j _ t.renderedNodes hj
    · by_cases heq : ex.item = item
      · rw [if_pos heq] at hj
        exact Or.inr hj
      · rw [if_neg heq] at hj
        exact mem_keys_setA i j _ t.renderedNodes hj

theorem renderOne_nodup (items : List Val) (i : ℤ) (t : VLState)
    (hn : (t.renderedNodes.map Prod.fst).Nodup) :
    ((renderOne items i t).renderedNodes.map Prod.fst).Nodup := by
  unfold renderOne
  rcases hit : (if i < 0 then none else items.get? i.toNat) with _ | item <;>
    simp only [hit]
  · exact hn
  · rcases hg : getA i t.renderedNodes with _ | ex <;> simp only [hg]
    · exact nodup_keys_setA i _ t.renderedNodes hn
    · by_cases heq : ex.item = item
      · rw [if_pos heq]
        exact hn
      · rw [if_neg heq]
        exact nodup_keys_setA i _ t.renderedNodes hn

theorem renderOne_nextNode (items : List Val) (i : ℤ) (t : VLState) :
    t.nextNode ≤ (renderOne items i t).nextNode := by
  unfold renderOne
  rcases hit : (if i < 0 then none else items.get? i.toNat) with _ | item <;>
    simp only [hit]
  · exact le_refl _
  · rcases hg : getA i t.renderedNodes with _ | ex <;> simp only [hg]
    · exact Nat.le_succ _
    · by_cases heq : ex.item = item
      · rw [if_pos heq]
      · rw [if_neg heq]
        exact Nat.le_succ _

theorem renderOne_content_absent (items : List Val) (i : ℤ) (t : VLState)
    (n : ℕ) (hlt : n < t.nextNode) (habs : n ∉ t.content) :
    n ∉ (renderOne items i t).content := by
  unfold renderOne
  rcases hit : (if i < 0 then none else items.get? i.toNat) with _ | item <;>
    simp only [hit]
  · exact habs
  · rcases hg : getA i t.renderedNodes with _ | ex <;> simp only [hg]
    · simp only [List.mem_append, List.mem_singleton]
      rintro (h | rfl)
      · exact habs h
      · omega
    · by_cases heq : ex.item = item
      · rw [if_pos heq]
        exact habs
      · rw [if_neg heq]
        simp only [List.mem_append, List.mem_singleton]
        rintro (h | rfl)
        · exact habs (List.mem_of_mem_erase h)
        · omega

theorem foldRender_spec (items : List Val) (L : List ℤ) : ∀ (t : VLState),
    (∀ j ∈ ((L.foldl (fun u i => renderOne items i u) t).renderedNodes.map Prod.fst),
        j ∈ t.renderedNodes.map Prod.fst ∨ j ∈ L) ∧
    ((t.renderedNodes.map Prod.fst).Nodup →
      ((L.foldl (fun u i => renderOne items i u) t).renderedNodes.map Prod.fst).Nodup) ∧
    t.nextNode ≤ (L.foldl (fun u i => renderOne items i u) t).nextNode ∧
    (∀ n, n < t.nextNode → n ∉ t.content →
      n ∉ (L.foldl (fun u i => renderOne items i u) t).content) := by
  induction L with
  | nil => exact fun t => ⟨fun j hj => Or.inl hj, fun h => h, le_refl _, fun n _ h => h⟩
  | cons i rest ih =>
      intro t
      simp only [List.foldl_cons]
      obtain ⟨ih1, ih2, ih3, ih4⟩ := ih (renderOne items i t)
      refine ⟨?_, ?_, ?_, ?_⟩
      · intro j hj
        rcases ih1 j hj with h | h
        · rcases renderOne_keys items i t j h with h | h
          · exact Or.inr (List.mem_cons.2 (Or.inl h))
          · exact Or.inl h
        · exact Or.inr (List.mem_cons.2 (Or.inr h))
      · exact fun hn => ih2 (renderOne_nodup items i t hn)
      · exact le_trans (renderOne_nextNode items i t) ih3
      · intro n hlt habs
        exact ih4 n (lt_of_lt_of_le hlt (renderOne_nextNode items i t))
          (renderOne_content_absent items i t n hlt habs)

/-! ## Lemmas about the keyed list reconciler -/

theorem nodup_map_inj {α β : Type} (g : α → β) (l : List α)
    (hn : (l.map g).Nodup) : ∀ p ∈ l, ∀ q ∈ l, g p = g q → p = q := by
  induction l with
  | nil => simp
  | cons a rest ih =>
      simp only [List.map_cons, List.nodup_cons] at hn
      intro p hp q hq hpq
      rcases List.mem_cons.1 hp with rfl | hp2
      · rcases List.mem_cons.1 hq with rfl | hq2
        · rfl
        · exact absurd (List.mem_map.2 ⟨q, hq2, hpq.symm⟩) hn.1
      · rcases List.mem_cons.1 hq with rfl | hq2
        · exact absurd (List.mem_map.2 ⟨p, hp2, hpq⟩) hn.1
        · exact ih hn.2 p hp2 q hq2 hpq

theorem nextSibling_split (n : ℕ) (F L : List ℕ) (hF : n ∉ F) :
    nextSibling n (F ++ n :: L) = L.head? := by
  induction F with
  | nil => simp [nextSibling]
  | cons a rest ih =>
      simp only [List.mem_cons, not_or] at hF
      simp only [List.cons_append, nextSibling]
      rw [if_neg (fun hcon => hF.1 hcon.symm)]
      exact ih hF.2

theorem takeWhile_split (r : ℕ) (F L : List ℕ) (hF : r ∉ F) :
    (F ++ r :: L).takeWhile (fun x => decide (x ≠ r)) = F ∧
    (F ++ r :: L).dropWhile (fun x => decide (x ≠ r)) = r :: L := by
  induction F with
  | nil => simp [List.takeWhile, List.dropWhile]
  | cons a rest ih =>
      simp only [List.mem_cons, not_or] at hF
      obtain ⟨ih1, ih2⟩ := ih hF.2
      have har : (decide (a ≠ r)) = true := by
        simp only [ne_eq, decide_eq_true_eq]
        exact fun hcon => hF.1 hcon.symm
      constructor
      · simp only [List.cons_append, List.takeWhile_cons, har, if_true]
        rw [ih1]
      · simp only [List.cons_append, List.dropWhile_cons, har, if_true]
        rw [ih2]

theorem delA_append_first (k : Val) (e : LEntry) (pre rest : KMap)
    (hpre : k ∉ pre.map Prod.fst) :
    delA k (pre ++ (k, e) :: rest) = pre ++ rest := by
  induction pre with
  | nil => simp [delA]
  | cons p pr ih =>
      obtain ⟨k0, e0⟩ := p
      simp only [List.map_cons, List.mem_cons, not_or] at hpre
      have hstep : delA k (((k0, e0) :: pr) ++ (k, e) :: rest) =
          (k0, e0) :: delA k (pr ++ (k, e) :: rest) := by
        simp only [List.cons_append, delA]
        rw [if_neg (fun hcon => hpre.1 hcon.symm)]
        rfl
      rw [hstep, ih hpre.2]
      rfl

theorem getA_append_absent (k : Val) (pre m : KMap) (hpre : k ∉ pre.map Prod.fst) :
    getA k (pre ++ m) = getA k m := by
  induction pre with
  | nil => simp
  | cons p pr ih =>
      obtain ⟨k0, e0⟩ := p
      simp only [List.map_cons, List.mem_cons, not_or] at hpre
      simp only [List.cons_append, getA]
      rw [if_neg (fun hcon => hpre.1 hcon.symm)]
      exact ih hpre.2

/-- Step 1 of `reconcile`, generalized over the not-yet-visited suffix
of the map snapshot: visiting `m` with the live map `pre ++ m` (every
entry of `pre` already kept) keeps exactly the entries whose key is in
the new key set, and detaches the nodes of the dropped entries, in
order. -/
theorem removeStale_spec (newKeys : List Val) : ∀ (m : KMap) (s : ListState) (pre : KMap),
    s.keyToNode = pre ++ m →
    (((pre ++ m).map Prod.fst).Nodup) →
    (∀ p ∈ pre, p.1 ∈ newKeys) →
    (removeStale newKeys m s).keyToNode =
      pre ++ m.filter (fun p => decide (p.1 ∈ newKeys)) ∧
    (removeStale newKeys m s).children =
      ((m.filter (fun p => !decide (p.1 ∈ newKeys))).map (fun p => p.2.node)).foldl
        (fun ch n => ch.erase n) s.children ∧
    (removeStale newKeys m s).nextNode = s.nextNode := by
  intro m
  induction m with
  | nil =>
      intro s pre hmap hnodup hpre
      refine ⟨?_, rfl, rfl⟩
      show s.keyToNode = pre ++ List.filter (fun p => decide (p.1 ∈ newKeys)) []
      rw [hmap]
      rfl
  | cons p rest ih =>
      intro s pre hmap hnodup hpre
      obtain ⟨k, e⟩ := p
      simp only [removeStale]
      split
      · rename_i hk
        obtain ⟨h1, h2, h3⟩ := ih s (pre ++ [(k, e)])
          (by rw [hmap]; simp)
          (by simpa using hnodup)
          (by
            intro q hq
            rcases List.mem_append.1 hq with hq2 | hq2
            · exact hpre q hq2
            · simp only [List.mem_singleton] at hq2
              rw [hq2]
              exact hk)
        refine ⟨?_, ?_, h3⟩
        · rw [h1, List.filter_cons, if_pos (by simpa using hk)]
          simp
        · rw [h2, List.filter_cons]
          rw [if_neg (by simpa using hk)]
      · rename_i hk
        have hkpre : k ∉ pre.map Prod.fst := by
          intro hcon
          obtain ⟨q, hq, hq1⟩ := List.mem_map.1 hcon
          exact hk (hq1 ▸ hpre q hq)
        obtain ⟨h1, h2, h3⟩ := ih
          { s with
            children := s.children.erase e.node
            keyToNode := delA k s.keyToNode }
          pre
          (by
            show delA k s.keyToNode = pre ++ rest
            rw [hmap]
            exact delA_append_first k e pre rest hkpre)
          (by
            have h4 := hnodup
            rw [show (pre ++ (k, e) :: rest).map Prod.fst =
              pre.map Prod.fst ++ k :: rest.map Prod.fst by simp] at h4
            have h5 : (pre ++ rest).map Prod.fst =
                pre.map Prod.fst ++ rest.map Prod.fst := by simp
            rw [h5]
            refine h4.sublist ?_
            exact List.Sublist.append (List.Sublist.refl _)
              (List.sublist_cons_self k _))
          hpre
        refine ⟨?_, ?_, h3⟩
        · rw [h1, List.filter_cons, if_neg (by simpa using hk)]
        · rw [h2, List.filter_cons, if_pos (by simpa using hk)]
          simp

/-- Erasing a set of nodes that all lie strictly between the markers
touches only that region. -/
theorem foldl_erase_split (startM endM : ℕ) : ∀ (ns P Q R : List ℕ),
    (∀ n ∈ ns, n ∈ R) →
    (P ++ startM :: (R ++ endM :: Q)).Nodup →
    ns.Nodup →
    ns.foldl (fun ch n => ch.erase n) (P ++ startM :: (R ++ endM :: Q)) =
      P ++ startM :: ((ns.foldl (fun r n => r.erase n) R) ++ endM :: Q) := by
  intro ns
  induction ns with
  | nil => intro P Q R h1 h2 h3; rfl
  | cons n rest ih =>
      intro P Q R h1 h2 h3
      have hnR : n ∈ R := h1 n (List.mem_cons_self n rest)
      have hnP : n ∉ P := by
        intro hcon
        rw [List.nodup_append] at h2
        exact h2.2.2 hcon (by simp [hnR])
      have hns : startM ≠ n := by
        intro hcon
        rw [List.nodup_append, List.nodup_cons] at h2
        exact h2.2.1.1 (hcon ▸ List.mem_append.2 (Or.inl hnR))
      have hstep : (P ++ startM :: (R ++ endM :: Q)).erase n =
          P ++ startM :: (R.erase n ++ endM :: Q) := by
        rw [List.erase_append_right _ hnP]
        have h4 : (startM :: (R ++ endM :: Q)).erase n =
            startM :: (R ++ endM :: Q).erase n := by
          rw [List.erase_cons_tail]
          simp [hns]
        rw [h4, List.erase_append_left _ hnR]
      simp only [List.foldl_cons]
      rw [hstep]
      refine ih P Q (R.erase n) ?_ ?_ (List.Nodup.of_cons h3)
      · intro n' hn'
        have hne : n' ≠ n := by
          intro hcon
          rw [List.nodup_cons] at h3
          exact h3.1 (hcon ▸ hn')
        exact (List.mem_erase_of_ne hne).2 (h1 n' (List.mem_cons.2 (Or.inr hn')))
      · rw [← hstep]
        exact h2.erase n

theorem foldl_erase_sublist : ∀ (ns R : List ℕ),
    List.Sublist (ns.foldl (fun r x => r.erase x) R) R := by
  intro ns
  induction ns with
  | nil => exact fun R => List.Sublist.refl R
  | cons x rest ih =>
      intro R
      simp only [List.foldl_cons]
      exact (ih (R.erase x)).trans (List.erase_sublist x R)

theorem foldl_erase_mem : ∀ (ns R : List ℕ), R.Nodup →
    ∀ n, n ∈ ns.foldl (fun r x => r.erase x) R ↔ (n ∈ R ∧ n ∉ ns) := by
  intro ns
  induction ns with
  | nil => intro R _ n; simp
  | cons x rest ih =>
      intro R hR n
      simp only [List.foldl_cons]
      rw [ih (R.erase x) (hR.erase x) n, hR.mem_erase_iff]
      simp only [List.mem_cons, not_or]
      tauto

theorem setA_append {κ β : Type} [DecidableEq κ] (i : κ) (e : β)
    (m : List (κ × β)) (h : i ∉ m.map Prod.fst) : setA i e m = m ++ [(i, e)] := by
  induction m with
  | nil => simp [setA]
  | cons p rest ih =>
      obtain ⟨j, f⟩ := p
      simp only [List.map_cons, List.mem_cons, not_or] at h
      simp only [setA]
      rw [if_neg (fun hcon => h.1 hcon.symm), ih h.2]
      rfl

theorem getA_none_iff {κ β : Type} [DecidableEq κ] (i : κ) (m : List (κ × β)) :
    getA i m = none ↔ i ∉ m.map Prod.fst := by
  induction m with
  | nil => simp [getA]
  | cons p rest ih =>
      obtain ⟨j, f⟩ := p
      simp only [getA, List.map_cons, List.mem_cons]
      by_cases hji : j = i
      · rw [if_pos hji]
        simp [hji]
      · rw [if_neg hji]
        rw [ih]
        simp only [not_or]
        constructor
        · exact fun h => ⟨fun hcon => hji hcon.symm, h⟩
        · exact fun h => h.2

theorem getA_some_of_mem_keys {κ β : Type} [DecidableEq κ] (i : κ)
    (m : List (κ × β)) (h : i ∈ m.map Prod.fst) : ∃ e, getA i m = some e := by
  rcases hg : getA i m with _ | e
  · exact absurd h ((getA_none_iff i m).1 hg)
  · exact ⟨e, rfl⟩

/-- Step 2 of `reconcile`: walking the item/key pairs builds a map whose
keys are the accumulated keys followed by the pair keys in order, whose
node identities are pairwise distinct, each entry either reusing the
node of the old entry with its key or carrying a fresh node at or above
the initial counter; reused keys keep their old node. -/
theorem buildNew_spec (old : KMap) (cInit : ℕ)
    (holdn : (old.map (fun p => p.2.node)).Nodup)
    (holdb : ∀ p ∈ old, p.2.node < cInit) :
    ∀ (pairs : List (Val × Val)) (acc : KMap) (c0 : ℕ),
    cInit ≤ c0 →
    ((acc.map Prod.fst ++ pairs.map Prod.snd).Nodup) →
    (∀ p ∈ acc, (∃ q ∈ old, q.1 = p.1 ∧ p.2.node = q.2.node) ∨
      (cInit ≤ p.2.node ∧ p.2.node < c0)) →
    ((acc.map (fun p => p.2.node)).Nodup) →
    (buildNew old pairs acc c0).1.map Prod.fst = acc.map Prod.fst ++ pairs.map Prod.snd ∧
    c0 ≤ (buildNew old pairs acc c0).2 ∧
    ((buildNew old pairs acc c0).1.map (fun p => p.2.node)).Nodup ∧
    (∀ p ∈ (buildNew old pairs acc c0).1,
      (∃ q ∈ old, q.1 = p.1 ∧ p.2.node = q.2.node) ∨
      (cInit ≤ p.2.node ∧ p.2.node < (buildNew old pairs acc c0).2)) ∧
    (∀ p ∈ acc, p ∈ (buildNew old pairs acc c0).1) ∧
    (∀ k f0 f, k ∈ pairs.map Prod.snd → getA k old = some f0 →
      getA k (buildNew old pairs acc c0).1 = some f → f.node = f0.node) := by
  intro pairs
  induction pairs with
  | nil =>
      intro acc c0 hc hkeys hinv hnodes
      simp only [buildNew, List.map_nil, List.append_nil]
      exact ⟨trivial, le_refl _, hnodes, fun p hp => hinv p hp, fun p hp => hp,
        fun k f0 f hk _ _ => absurd hk (List.not_mem_nil k)⟩
  | cons q rest ih =>
      intro acc c0 hc hkeys hinv hnodes
      obtain ⟨item, k⟩ := q
      have hknotacc : k ∉ acc.map Prod.fst := by
        rw [List.nodup_append] at hkeys
        intro hcon
        exact hkeys.2.2 hcon (by simp)
      have hkeys2 : ∀ (e : LEntry),
          (((setA k e acc).map Prod.fst) ++ rest.map Prod.snd).Nodup := by
        intro e
        rw [setA_append k e acc hknotacc]
        have : (acc ++ [(k, e)]).map Prod.fst ++ rest.map Prod.snd =
            acc.map Prod.fst ++ k :: rest.map Prod.snd := by simp
        rw [this]
        simpa using hkeys
      simp only [buildNew]
      rcases hget : getA k old with _ | e0
      · -- fresh entry
        obtain ⟨k1, k2, k3, k4, k5, k6⟩ := ih (setA k ⟨c0, item⟩ acc) (c0 + 1)
          (le_trans hc (Nat.le_succ c0))
          (hkeys2 ⟨c0, item⟩)
          (by
            intro p hp
            rw [setA_append k _ acc hknotacc] at hp
            rcases List.mem_append.1 hp with hp2 | hp2
            · rcases hinv p hp2 with h | ⟨ha, hb⟩
              · exact Or.inl h
              · exact Or.inr ⟨ha, lt_trans hb (Nat.lt_succ_self c0)⟩
            · simp only [List.mem_singleton] at hp2
              rw [hp2]
              exact Or.inr ⟨hc, Nat.lt_succ_self c0⟩)
          (by
            rw [setA_append k _ acc hknotacc]
            have hnot : c0 ∉ acc.map (fun p => p.2.node) := by
              intro hcon
              obtain ⟨p, hp, hp1⟩ := List.mem_map.1 hcon
              rcases hinv p hp with ⟨qq, hqq, -, hq2⟩ | ⟨-, hb⟩
              · have := holdb qq hqq
                omega
              · omega
            simp [List.nodup_append, hnodes, hnot])
        refine ⟨?_, le_trans (Nat.le_succ c0) k2, k3, k4, ?_, ?_⟩
        · rw [k1, setA_append k _ acc hknotacc]
          simp
        · intro p hp
          refine k5 p ?_
          rw [setA_append k _ acc hknotacc]
          exact List.mem_append.2 (Or.inl hp)
        · intro k2 f0 f hk2 hold hres
          have hk3 : k2 = k ∨ k2 ∈ rest.map Prod.snd := by simpa using hk2
          rcases hk3 with heq | hk3
          · rw [heq, hget] at hold
            exact absurd hold (by simp)
          · exact k6 k2 f0 f hk3 hold hres
      · -- reused entry
        obtain ⟨k1, k2, k3, k4, k5, k6⟩ := ih (setA k ⟨e0.node, item⟩ acc) c0
          hc
          (hkeys2 ⟨e0.node, item⟩)
          (by
            intro p hp
            rw [setA_append k _ acc hknotacc] at hp
            rcases List.mem_append.1 hp with hp2 | hp2
            · exact hinv p hp2
            · simp only [List.mem_singleton] at hp2
              rw [hp2]
              exact Or.inl ⟨(k, e0), mem_of_getA k e0 old hget, rfl, rfl⟩)
          (by
            rw [setA_append k _ acc hknotacc]
            have hnot : e0.node ∉ acc.map (fun p => p.2.node) := by
              intro hcon
              obtain ⟨p, hp, hp1⟩ := List.mem_map.1 hcon
              rcases hinv p hp with ⟨qq, hqq, hq1, hq2⟩ | ⟨ha, -⟩
              · have heq : qq = (k, e0) := by
                  refine nodup_map_inj (fun p => p.2.node) old holdn qq hqq
                    (k, e0) (mem_of_getA k e0 old hget) ?_
                  show qq.2.node = e0.node
                  rw [← hq2, hp1]
                have : p.1 = k := by
                  rw [← hq1, heq]
                exact hknotacc (this ▸ List.mem_map.2 ⟨p, hp, rfl⟩)
              · have h2 : e0.node < cInit := holdb (k, e0) (mem_of_getA k e0 old hget)
                omega
            simp [List.nodup_append, hnodes, hnot])
        refine ⟨?_, k2, k3, k4, ?_, ?_⟩
        · rw [k1, setA_append k _ acc hknotacc]
          simp
        · intro p hp
          refine k5 p ?_
          rw [setA_append k _ acc hknotacc]
          exact List.mem_append.2 (Or.inl hp)
        · intro k2 f0 f hk2 hold hres
          have hk3 : k2 = k ∨ k2 ∈ rest.map Prod.snd := by simpa using hk2
          rcases hk3 with heq | hk3
          · rw [heq] at hold hres
            have hf0 : f0 = e0 := by
              rw [hget] at hold
              exact (Option.some.inj hold).symm
            have hmemacc : (k, (⟨e0.node, item⟩ : LEntry)) ∈ setA k ⟨e0.node, item⟩ acc := by
              rw [setA_append k _ acc hknotacc]
              simp
            have hmemres : (k, (⟨e0.node, item⟩ : LEntry)) ∈
                (buildNew old rest (setA k ⟨e0.node, item⟩ acc) c0).1 :=
              k5 _ hmemacc
            have hresnodup :
                ((buildNew old rest (setA k ⟨e0.node, item⟩ acc) c0).1.map Prod.fst).Nodup := by
              rw [k1, setA_append k _ acc hknotacc]
              have heq : ((acc ++ [(k, (⟨e0.node, item⟩ : LEntry))]).map Prod.fst)
                  ++ rest.map Prod.snd =
                  acc.map Prod.fst ++ k :: rest.map Prod.snd := by simp
              rw [heq]
              simpa using hkeys
            have hgr : getA k (buildNew old rest (setA k ⟨e0.node, item⟩ acc) c0).1 =
                some ⟨e0.node, item⟩ := getA_eq_of_mem _ _ _ hresnodup hmemres
            rw [hgr] at hres
            have hf : f = ⟨e0.node, item⟩ := (Option.some.inj hres).symm
            rw [hf, hf0]
          · exact k6 k2 f0 f hk3 hold hres

/-- Step 3 of `reconcile`: repositioning walks the new keys with a
cursor.  Starting from a children list `F ++ (T ++ endM :: Q1)` with
the cursor at the head of `T ++ endM :: Q1`, where `T` holds exactly
the target nodes of the keys (in any order) and every other key's
target node is detached, the walk rewrites the region to the targets in
key order and leaves `F`, `endM` and `Q1` untouched. -/
theorem reposition_spec (m : KMap) (tgt : Val → ℕ) (endM : ℕ) :
    ∀ (ks : List Val) (F T Q1 : List ℕ),
    ks.Nodup →
    (∀ k ∈ ks, ∃ e, getA k m = some e ∧ e.node = tgt k) →
    (∀ k1 ∈ ks, ∀ k2 ∈ ks, tgt k1 = tgt k2 → k1 = k2) →
    (F ++ (T ++ endM :: Q1)).Nodup →
    (∀ k ∈ ks, tgt k ∈ T ∨ tgt k ∉ F ++ (T ++ endM :: Q1)) →
    (∀ n ∈ T, ∃ k ∈ ks, tgt k = n) →
    reposition m ks ((T ++ endM :: Q1).head?) (F ++ (T ++ endM :: Q1)) =
      F ++ (ks.map tgt ++ endM :: Q1) := by
  intro ks
  induction ks with
  | nil =>
      intro F T Q1 _ _ _ _ _ hcover
      have hT : T = [] := by
        cases T with
        | nil => rfl
        | cons n T2 =>
            obtain ⟨k, hk, -⟩ := hcover n (List.mem_cons_self n T2)
            exact absurd hk (List.not_mem_nil k)
      rw [hT]
      simp [reposition]
  | cons k ks2 ih =>
      intro F T Q1 hnd htgt hinj hch hloc hcover
      obtain ⟨e, hge, hne⟩ := htgt k (List.mem_cons_self k ks2)
      have hndk : k ∉ ks2 := (List.nodup_cons.1 hnd).1
      have hnd2 : ks2.Nodup := (List.nodup_cons.1 hnd).2
      have htgt2 : ∀ k2 ∈ ks2, ∃ e2, getA k2 m = some e2 ∧ e2.node = tgt k2 :=
        fun k2 hk2 => htgt k2 (List.mem_cons.2 (Or.inr hk2))
      have hinj2 : ∀ k1 ∈ ks2, ∀ k2 ∈ ks2, tgt k1 = tgt k2 → k1 = k2 :=
        fun k1 h1 k2 h2 =>
          hinj k1 (List.mem_cons.2 (Or.inr h1)) k2 (List.mem_cons.2 (Or.inr h2))
      have htkdiff : ∀ k2 ∈ ks2, tgt k2 ≠ tgt k := by
        intro k2 hk2 hcon
        exact hndk (hinj k2 (List.mem_cons.2 (Or.inr hk2)) k
          (List.mem_cons_self k ks2) hcon ▸ hk2)
      simp only [reposition, hge, List.map_cons]
      cases T with
      | nil =>
          simp only [List.nil_append, List.head?_cons]
          have hknotch : tgt k ∉ F ++ endM :: Q1 := by
            rcases hloc k (List.mem_cons_self k ks2) with h | h
            · exact absurd h (List.not_mem_nil _)
            · intro hcon
              exact h (by simpa using hcon)
          have hkem : tgt k ≠ endM := by
            intro hcon
            exact hknotch (hcon ▸ List.mem_append.2 (Or.inr (by simp)))
          have hcur : ¬ ((some endM : Option ℕ) = some e.node) := by
            intro hcon
            have h2 : endM = e.node := Option.some.inj hcon
            rw [hne] at h2
            exact hkem h2.symm
          rw [if_neg hcur]
          have hendF : endM ∉ F := by
            have hch2 : (F ++ endM :: Q1).Nodup := by simpa using hch
            rw [List.nodup_append] at hch2
            intro hcon
            exact hch2.2.2 hcon (by simp)
          have hins : insertBeforeRef e.node (some endM) (F ++ endM :: Q1) =
              F ++ tgt k :: endM :: Q1 := by
            obtain ⟨ht, hd⟩ := takeWhile_split endM F Q1 hendF
            simp only [insertBeforeRef, hne, List.erase_of_not_mem hknotch, ht, hd]
          rw [hins]
          have hch3 : ((F ++ [tgt k]) ++ ([] ++ endM :: Q1)).Nodup := by
            have hch2 : (F ++ endM :: Q1).Nodup := by simpa using hch
            have hceq : (F ++ [tgt k]) ++ ([] ++ endM :: Q1 : List ℕ) =
                F ++ tgt k :: endM :: Q1 := by simp
            rw [hceq]
            rw [List.nodup_append] at hch2 ⊢
            obtain ⟨hF, hQ, hdisj⟩ := hch2
            refine ⟨hF, ?_, ?_⟩
            · rw [List.nodup_cons]
              exact ⟨fun hcon => hknotch (List.mem_append.2 (Or.inr hcon)), hQ⟩
            · intro a ha hcon
              rcases List.mem_cons.1 hcon with rfl | hcon2
              · exact hknotch (List.mem_append.2 (Or.inl ha))
              · exact hdisj ha hcon2
          have hloc3 : ∀ k2 ∈ ks2, tgt k2 ∈ ([] : List ℕ) ∨
              tgt k2 ∉ (F ++ [tgt k]) ++ ([] ++ endM :: Q1) := by
            intro k2 hk2
            refine Or.inr ?_
            rcases hloc k2 (List.mem_cons.2 (Or.inr hk2)) with h | h
            · exact absurd h (List.not_mem_nil _)
            · intro hcon
              rcases List.mem_append.1 hcon with hc | hc
              · rcases List.mem_append.1 hc with hc2 | hc2
                · exact h (List.mem_append.2 (Or.inl hc2))
                · exact htkdiff k2 hk2 (by simpa using hc2)
              · exact h (List.mem_append.2 (Or.inr hc))
          have hcover3 : ∀ n2 ∈ ([] : List ℕ), ∃ k2 ∈ ks2, tgt k2 = n2 :=
            fun n2 hn2 => absurd hn2 (List.not_mem_nil n2)
          have hIH := ih (F ++ [tgt k]) [] Q1 hnd2 htgt2 hinj2 hch3 hloc3 hcover3
          simp only [List.nil_append, List.head?_cons] at hIH
          rw [show F ++ [tgt k] ++ endM :: Q1 = F ++ tgt k :: endM :: Q1 by simp] at hIH
          rw [hIH]
          simp
      | cons n T2 =>
          simp only [List.cons_append, List.head?_cons]
          have hch1 : (F ++ n :: (T2 ++ endM :: Q1)).Nodup := hch
          have hnF : n ∉ F := by
            have h2 := hch1
            rw [List.nodup_append] at h2
            intro hcon
            exact h2.2.2 hcon (by simp)
          have hnT2 : n ∉ T2 ++ endM :: Q1 := by
            have h2 := hch1
            rw [List.nodup_append, List.nodup_cons] at h2
            exact h2.2.1.1
          have hT2nodup : T2.Nodup := by
            have h2 := hch1
            rw [List.nodup_append, List.nodup_cons, List.nodup_append] at h2
            exact h2.2.1.2.1
          by_cases hkn : tgt k = n
          · have hcnd : (some n : Option ℕ) = some e.node := by rw [hne, hkn]
            rw [if_pos hcnd]
            have hnext : nextSibling e.node (F ++ n :: (T2 ++ endM :: Q1)) =
                (T2 ++ endM :: Q1).head? := by
              rw [hne, hkn]
              exact nextSibling_split n F (T2 ++ endM :: Q1) hnF
            rw [hnext]
            have hch3 : ((F ++ [n]) ++ (T2 ++ endM :: Q1)).Nodup := by
              rw [show (F ++ [n]) ++ (T2 ++ endM :: Q1) =
                  F ++ n :: (T2 ++ endM :: Q1) by simp]
              exact hch1
            have hloc3 : ∀ k2 ∈ ks2, tgt k2 ∈ T2 ∨
                tgt k2 ∉ (F ++ [n]) ++ (T2 ++ endM :: Q1) := by
              intro k2 hk2
              rcases hloc k2 (List.mem_cons.2 (Or.inr hk2)) with h | h
              · rcases List.mem_cons.1 h with h2 | h2
                · exact absurd (h2.trans hkn.symm) (htkdiff k2 hk2)
                · exact Or.inl h2
              · refine Or.inr ?_
                intro hcon
                refine h ?_
                rw [show (F ++ [n]) ++ (T2 ++ endM :: Q1) =
                    F ++ n :: (T2 ++ endM :: Q1) by simp] at hcon
                exact hcon
            have hcover3 : ∀ n2 ∈ T2, ∃ k2 ∈ ks2, tgt k2 = n2 := by
              intro n2 hn2
              obtain ⟨k2, hk2, htk2⟩ := hcover n2 (List.mem_cons.2 (Or.inr hn2))
              rcases List.mem_cons.1 hk2 with rfl | hk2b
              · have heq : n = n2 := hkn.symm.trans htk2
                rw [← heq] at hn2
                exact absurd (List.mem_append.2 (Or.inl hn2)) hnT2
              · exact ⟨k2, hk2b, htk2⟩
            have hIH := ih (F ++ [n]) T2 Q1 hnd2 htgt2 hinj2 hch3 hloc3 hcover3
            rw [show (F ++ [n]) ++ (T2 ++ endM :: Q1) =
                F ++ n :: (T2 ++ endM :: Q1) by simp] at hIH
            rw [hIH, hkn]
            simp
          · have hcnd : ¬ ((some n : Option ℕ) = some e.node) := by
              rw [hne]
              intro hcon
              exact hkn (Option.some.inj hcon).symm
            rw [if_neg hcnd]
            have hnk : n ≠ tgt k := fun hcon => hkn hcon.symm
            have htkcases : tgt k ∈ T2 ∨ tgt k ∉ F ++ n :: (T2 ++ endM :: Q1) := by
              rcases hloc k (List.mem_cons_self k ks2) with h | h
              · rcases List.mem_cons.1 h with h2 | h2
                · exact absurd h2 hkn
                · exact Or.inl h2
              · exact Or.inr h
            have hkF : tgt k ∉ F := by
              rcases htkcases with hmem | hnot
              · have h2 := hch1
                rw [List.nodup_append] at h2
                intro hcon
                exact h2.2.2 hcon (by simp [hmem])
              · intro hcon
                exact hnot (List.mem_append.2 (Or.inl hcon))
            have herase : (F ++ n :: (T2 ++ endM :: Q1)).erase (tgt k) =
                F ++ n :: (T2.erase (tgt k) ++ endM :: Q1) := by
              rcases htkcases with hmem | hnot
              · rw [List.erase_append_right _ hkF]
                have h4 : (n :: (T2 ++ endM :: Q1)).erase (tgt k) =
                    n :: (T2 ++ endM :: Q1).erase (tgt k) := by
                  rw [List.erase_cons_tail]
                  simp [hnk]
                rw [h4, List.erase_append_left _ hmem]
              · have hT2no : tgt k ∉ T2 := fun hcon =>
                  hnot (List.mem_append.2 (Or.inr (List.mem_cons.2
                    (Or.inr (List.mem_append.2 (Or.inl hcon))))))
                rw [List.erase_of_not_mem hnot, List.erase_of_not_mem hT2no]
            have hins : insertBeforeRef e.node (some n) (F ++ n :: (T2 ++ endM :: Q1)) =
                F ++ tgt k :: n :: (T2.erase (tgt k) ++ endM :: Q1) := by
              simp only [insertBeforeRef, hne]
              rw [herase]
              obtain ⟨ht, hd⟩ := takeWhile_split n F (T2.erase (tgt k) ++ endM :: Q1) hnF
              rw [ht, hd]
            rw [hins]
            have hknotch2 : tgt k ∉ F ++ n :: (T2.erase (tgt k) ++ endM :: Q1) := by
              rw [← herase]
              intro hcon
              exact ((List.Nodup.mem_erase_iff hch1).1 hcon).1 rfl
            have hch4 : ((F ++ [tgt k]) ++
                ((n :: T2.erase (tgt k)) ++ endM :: Q1)).Nodup := by
              have he1 := hch1.erase (tgt k)
              rw [herase] at he1
              rw [show (F ++ [tgt k]) ++ ((n :: T2.erase (tgt k)) ++ endM :: Q1) =
                  F ++ tgt k :: n :: (T2.erase (tgt k) ++ endM :: Q1) by simp]
              rw [List.nodup_append] at he1 ⊢
              obtain ⟨hF, hrest, hdisj⟩ := he1
              refine ⟨hF, ?_, ?_⟩
              · rw [List.nodup_cons]
                refine ⟨?_, hrest⟩
                intro hcon
                exact hknotch2 (List.mem_append.2 (Or.inr hcon))
              · intro a ha hcon
                rcases List.mem_cons.1 hcon with rfl | hcon2
                · exact hknotch2 (List.mem_append.2 (Or.inl ha))
                · exact hdisj ha hcon2
            have hloc4 : ∀ k2 ∈ ks2, tgt k2 ∈ n :: T2.erase (tgt k) ∨
                tgt k2 ∉ (F ++ [tgt k]) ++ ((n :: T2.erase (tgt k)) ++ endM :: Q1) := by
              intro k2 hk2
              rcases hloc k2 (List.mem_cons.2 (Or.inr hk2)) with h | h
              · rcases List.mem_cons.1 h with h2 | h2
                · exact Or.inl (List.mem_cons.2 (Or.inl h2))
                · exact Or.inl (List.mem_cons.2 (Or.inr
                    ((List.mem_erase_of_ne (htkdiff k2 hk2)).2 h2)))
              · refine Or.inr ?_
                intro hcon
                rcases List.mem_append.1 hcon with hc | hc
                · rcases List.mem_append.1 hc with hc2 | hc2
                  · exact h (List.mem_append.2 (Or.inl hc2))
                  · exact htkdiff k2 hk2 (by simpa using hc2)
                · refine h (List.mem_append.2 (Or.inr ?_))
                  rcases List.mem_append.1 hc with hc2 | hc2
                  · rcases List.mem_cons.1 hc2 with h3 | h3
                    · exact List.mem_append.2 (Or.inl (List.mem_cons.2 (Or.inl h3)))
                    · exact List.mem_append.2 (Or.inl (List.mem_cons.2
                        (Or.inr (List.mem_of_mem_erase h3))))
                  · exact List.mem_append.2 (Or.inr hc2)
            have hcover4 : ∀ n2 ∈ n :: T2.erase (tgt k), ∃ k2 ∈ ks2, tgt k2 = n2 := by
              intro n2 hn2
              rcases List.mem_cons.1 hn2 with rfl | hn2b
              · obtain ⟨k2, hk2, htk2⟩ := hcover n2 (List.mem_cons_self n2 T2)
                rcases List.mem_cons.1 hk2 with rfl | hk2b
                · exact absurd htk2 hkn
                · exact ⟨k2, hk2b, htk2⟩
              · have hmem2 : n2 ∈ T2 := List.mem_of_mem_erase hn2b
                obtain ⟨k2, hk2, htk2⟩ := hcover n2 (List.mem_cons.2 (Or.inr hmem2))
                rcases List.mem_cons.1 hk2 with rfl | hk2b
                · have h5 := (List.Nodup.mem_erase_iff hT2nodup).1 hn2b
                  exact absurd htk2.symm h5.1
                · exact ⟨k2, hk2b, htk2⟩
            have hIH := ih (F ++ [tgt k]) (n :: T2.erase (tgt k)) Q1
              hnd2 htgt2 hinj2 hch4 hloc4 hcover4
            simp only [List.cons_append, List.head?_cons] at hIH
            rw [show (F ++ [tgt k]) ++ (n :: (T2.erase (tgt k) ++ endM :: Q1)) =
                F ++ tgt k :: n :: (T2.erase (tgt k) ++ endM :: Q1) by simp] at hIH
            rw [hIH]
            simp

theorem zip_map_snd (f : Val → Val) : ∀ (l : List Val),
    ((l.zip (l.map f)).map Prod.snd) = l.map f := by
  intro l
  induction l with
  | nil => rfl
  | cons a rest ih => simp only [List.map_cons, List.zip_cons_cons, ih]

theorem map_getA_nodes : ∀ (m : KMap), (m.map Prod.fst).Nodup →
    (m.map Prod.fst).map
      (fun k => ((getA k m).map (fun e => e.node)).getD 0) =
      m.map (fun p => p.2.node) := by
  intro m
  induction m with
  | nil => intro _; rfl
  | cons p rest ih =>
      obtain ⟨k0, e0⟩ := p
      intro hn
      have hn2 : (k0 :: rest.map Prod.fst).Nodup := by simpa using hn
      rw [List.map_cons, List.map_cons, List.map_cons]
      congr 1
      · simp [getA]
      · rw [← ih ((List.nodup_cons.1 hn2).2)]
        refine List.map_congr_left ?_
        intro k hk
        have hne : ¬ (k0 = k) := fun hcon =>
          (List.nodup_cons.1 hn2).1 (hcon ▸ hk)
        simp [getA, if_neg hne]

/-- Steps 2 and 3 of `reconcile` combined: given the pruned map `m1`
(whose keys all appear in the new key list and whose node identities
are distinct and below the counter `c0`), a managed region `R2` holding
exactly the pruned map's nodes, and a duplicate-free children list
whose entries are all below `c0`, building the new map and then
repositioning yields a map keyed exactly by the new keys and a
children list whose managed region is the new map's nodes in order;
nodes below `c0` absent from `m1` do not reappear in the new map. -/
theorem buildReposition_spec (keyFn : Val → Val) (startM endM : ℕ) (items : List Val)
    (m1 : KMap) (c0 : ℕ) (R2 P Q : List ℕ)
    (h1 : (items.map keyFn).Nodup)
    (h2 : (m1.map Prod.fst).Nodup)
    (h3 : (m1.map (fun p => p.2.node)).Nodup)
    (h4 : ∀ p ∈ m1, p.2.node < c0)
    (h5 : ∀ n, n ∈ R2 ↔ n ∈ m1.map (fun p => p.2.node))
    (h6 : (P ++ startM :: (R2 ++ endM :: Q)).Nodup)
    (h7 : ∀ n ∈ P ++ startM :: (R2 ++ endM :: Q), n < c0)
    (h8 : ∀ p ∈ m1, p.1 ∈ items.map keyFn) :
    (buildNew m1 (items.zip (items.map keyFn)) [] c0).1.map Prod.fst =
      items.map keyFn ∧
    reposition (buildNew m1 (items.zip (items.map keyFn)) [] c0).1 (items.map keyFn)
      ((R2 ++ endM :: Q).head?) ((P ++ [startM]) ++ (R2 ++ endM :: Q)) =
      (P ++ [startM]) ++
        ((buildNew m1 (items.zip (items.map keyFn)) [] c0).1.map (fun p => p.2.node)
          ++ endM :: Q) ∧
    (∀ n0, n0 < c0 → n0 ∉ m1.map (fun p => p.2.node) →
      n0 ∉ (buildNew m1 (items.zip (items.map keyFn)) [] c0).1.map
        (fun p => p.2.node)) := by
  have hsnd : (items.zip (items.map keyFn)).map Prod.snd = items.map keyFn :=
    zip_map_snd keyFn items
  obtain ⟨hb1, hb2, hb3, hb4, hb5, hb6⟩ := buildNew_spec m1 c0 h3 h4
    (items.zip (items.map keyFn)) [] c0 (le_refl c0)
    (by simpa [hsnd] using h1) (by simp) (by simp)
  rw [List.map_nil, List.nil_append, hsnd] at hb1
  have htgt : ∀ k ∈ items.map keyFn, ∃ e,
      getA k (buildNew m1 (items.zip (items.map keyFn)) [] c0).1 = some e ∧
      e.node = ((getA k (buildNew m1 (items.zip (items.map keyFn)) [] c0).1).map
        (fun e => e.node)).getD 0 := by
    intro k hk
    obtain ⟨e, he⟩ := getA_some_of_mem_keys k _ (by rw [hb1]; exact hk)
    refine ⟨e, he, ?_⟩
    rw [he]
    rfl
  refine ⟨hb1, ?_, ?_⟩
  · have hinj : ∀ k1 ∈ items.map keyFn, ∀ k2 ∈ items.map keyFn,
        ((getA k1 (buildNew m1 (items.zip (items.map keyFn)) [] c0).1).map
          (fun e => e.node)).getD 0 =
        ((getA k2 (buildNew m1 (items.zip (items.map keyFn)) [] c0).1).map
          (fun e => e.node)).getD 0 → k1 = k2 := by
      intro k1 hk1 k2 hk2 heq
      obtain ⟨e1, he1, ht1⟩ := htgt k1 hk1
      obtain ⟨e2, he2, ht2⟩ := htgt k2 hk2
      have hn12 : e1.node = e2.node := by rw [ht1, ht2, heq]
      have heqp := nodup_map_inj (fun p => p.2.node) _ hb3 (k1, e1)
        (mem_of_getA k1 e1 _ he1) (k2, e2) (mem_of_getA k2 e2 _ he2) hn12
      exact congrArg Prod.fst heqp
    have hloc : ∀ k ∈ items.map keyFn,
        ((getA k (buildNew m1 (items.zip (items.map keyFn)) [] c0).1).map
          (fun e => e.node)).getD 0 ∈ R2 ∨
        ((getA k (buildNew m1 (items.zip (items.map keyFn)) [] c0).1).map
          (fun e => e.node)).getD 0 ∉ (P ++ [startM]) ++ (R2 ++ endM :: Q) := by
      intro k hk
      obtain ⟨e, he, hte⟩ := htgt k hk
      rcases hb4 (k, e) (mem_of_getA k e _ he) with ⟨q, hq, hq1, hq2⟩ | ⟨hfr, -⟩
      · left
        rw [← hte, h5]
        exact List.mem_map.2 ⟨q, hq, hq2.symm⟩
      · right
        rw [← hte]
        intro hcon
        have hlt := h7 e.node (by
          rw [show (P ++ [startM]) ++ (R2 ++ endM :: Q) =
            P ++ startM :: (R2 ++ endM :: Q) by simp] at hcon
          exact hcon)
        have hfr2 : c0 ≤ e.node := hfr
        omega
    have hcover : ∀ n ∈ R2, ∃ k ∈ items.map keyFn,
        ((getA k (buildNew m1 (items.zip (items.map keyFn)) [] c0).1).map
          (fun e => e.node)).getD 0 = n := by
      intro n hn
      rw [h5] at hn
      obtain ⟨p, hp, hpn⟩ := List.mem_map.1 hn
      have hkmem : p.1 ∈ items.map keyFn := h8 p hp
      have hg1 : getA p.1 m1 = some p.2 := getA_eq_of_mem _ _ _ h2 hp
      obtain ⟨e, he⟩ := getA_some_of_mem_keys p.1 _ (by rw [hb1]; exact hkmem)
      have hen : e.node = p.2.node :=
        hb6 p.1 p.2 e (by rw [hsnd]; exact hkmem) hg1 he
      refine ⟨p.1, hkmem, ?_⟩
      rw [he]
      show e.node = n
      rw [hen]
      exact hpn
    have hrep := reposition_spec (buildNew m1 (items.zip (items.map keyFn)) [] c0).1
      (fun k => ((getA k (buildNew m1 (items.zip (items.map keyFn)) [] c0).1).map
        (fun e => e.node)).getD 0) endM (items.map keyFn) (P ++ [startM]) R2 Q
      h1 htgt hinj
      (by rw [show (P ++ [startM]) ++ (R2 ++ endM :: Q) =
        P ++ startM :: (R2 ++ endM :: Q) by simp]; exact h6) hloc hcover
    rw [hrep]
    have hmapn := map_getA_nodes (buildNew m1 (items.zip (items.map keyFn)) [] c0).1
      (by rw [hb1]; exact h1)
    rw [hb1] at hmapn
    rw [hmapn]
  · intro n0 hlt hnotm1 hcon
    obtain ⟨p, hp, hpn⟩ := List.mem_map.1 hcon
    have hpn2 : p.2.node = n0 := hpn
    rcases hb4 p hp with ⟨q, hq, hq1, hq2⟩ | ⟨hfr, -⟩
    · refine hnotm1 (List.mem_map.2 ⟨q, hq, ?_⟩)
      show q.2.node = n0
      rw [← hq2]
      exact hpn2
    · have hfr2 : c0 ≤ p.2.node := hfr
      omega

/-! ## Basic lemmas about the reactive interpreter -/

theorem readCell_log (c : CId) (s : St) :
    ∃ d, (readCell c s).2.log = s.log ++ d := by
  rcases hh : s.effectStack.head? with _ | h0
  · exact ⟨[], by simp [readCell, hh]⟩
  · exact ⟨[Ev.read h0 c], by simp [readCell, hh]⟩

/-- Every successful interpreter step only appends to the ghost log. -/
theorem runReq_log (f : ℕ) : ∀ (req : Req) (s s' : St),
    runReq f req s = some s' → ∃ d, s'.log = s.log ++ d := by
  induction f with
  | zero => intro req s s' h; simp [runReq] at h
  | succ f ih =>
      intro req s s' hrun
      match req with
      | .cmds [] =>
          simp only [runReq, Option.some.injEq] at hrun
          subst hrun
          exact ⟨[], by simp⟩
      | .cmds (c :: cs) =>
          simp only [runReq] at hrun
          rcases h1 : runReq f (.cmd c) s with _ | s1 <;> rw [h1] at hrun
          · simp at hrun
          · rw [Option.some_bind] at hrun
            obtain ⟨d1, hd1⟩ := ih (.cmd c) s s1 h1
            obtain ⟨d2, hd2⟩ := ih (.cmds cs) s1 s' hrun
            exact ⟨d1 ++ d2, by rw [hd2, hd1, List.append_assoc]⟩
      | .cmd (.readC c) =>
          simp only [runReq, Option.some.injEq] at hrun
          subst hrun
          exact readCell_log c s
      | .cmd (.ifRead c t e) =>
          simp only [runReq] at hrun
          obtain ⟨d0, hd0⟩ := readCell_log c s
          split at hrun
          · obtain ⟨d2, hd2⟩ := ih _ _ _ hrun
            exact ⟨d0 ++ d2, by rw [hd2, hd0, List.append_assoc]⟩
          · obtain ⟨d2, hd2⟩ := ih _ _ _ hrun
            exact ⟨d0 ++ d2, by rw [hd2, hd0, List.append_assoc]⟩
      | .cmd (.writeC c u) =>
          simp only [runReq] at hrun
          exact ih _ _ _ hrun
      | .write c u =>
          simp only [runReq] at hrun
          split at hrun
          · simp only [Option.some.injEq] at hrun
            subst hrun
            exact ⟨[], by simp⟩
          · obtain ⟨d2, hd2⟩ := ih _ _ _ hrun
            refine ⟨Ev.store c (resolveUpd u (s.cells c).value) :: d2, ?_⟩
            rw [hd2]
            simp
      | .notify w [] =>
          simp only [runReq, Option.some.injEq] at hrun
          subst hrun
          exact ⟨[], by simp⟩
      | .notify w (h0 :: t) =>
          simp only [runReq] at hrun
          split at hrun
          · exact ih _ _ _ hrun
          · rcases h1 : runReq f (.exec h0) { s with log := s.log ++ [Ev.invoke w h0] }
                with _ | s1 <;> rw [h1] at hrun
            · simp at hrun
            · rw [Option.some_bind] at hrun
              obtain ⟨d1, hd1⟩ := ih _ _ _ h1
              obtain ⟨d2, hd2⟩ := ih _ _ _ hrun
              refine ⟨Ev.invoke w h0 :: (d1 ++ d2), ?_⟩
              rw [hd2, hd1]
              simp
      | .exec h0 =>
          simp only [runReq] at hrun
          split at hrun
          · simp only [Option.some.injEq] at hrun
            subst hrun
            exact ⟨[Ev.warn h0], by simp⟩
          · rcases h1 : runReq f (.cmds (s.handles h0).body)
                { setRunning h0 true (cleanup h0 s) with
                  effectStack := h0 :: (cleanup h0 s).effectStack
                  log := (cleanup h0 s).log ++ [Ev.run h0] } with _ | s3 <;>
              rw [h1] at hrun
            · simp at hrun
            · rw [Option.map_some'] at hrun
              simp only [Option.some.injEq] at hrun
              subst hrun
              obtain ⟨d1, hd1⟩ := ih _ _ _ h1
              refine ⟨Ev.run h0 :: d1, ?_⟩
              simp only [setRunning]
              rw [hd1]
              simp [cleanup, setRunning]

theorem readCell_stack (c : CId) (s : St) :
    (readCell c s).2.effectStack = s.effectStack := by
  rcases hh : s.effectStack.head? with _ | h0 <;> simp [readCell, hh]

theorem readCell_writeCount (c : CId) (s : St) :
    (readCell c s).2.writeCount = s.writeCount := by
  rcases hh : s.effectStack.head? with _ | h0 <;> simp [readCell, hh]

theorem readCell_handle_fields (c : CId) (s : St) (h : HId) :
    ((readCell c s).2.handles h).running = (s.handles h).running ∧
    ((readCell c s).2.handles h).body = (s.handles h).body := by
  rcases hh : s.effectStack.head? with _ | h0
  · simp [readCell, hh]
  · simp only [readCell, hh]
    by_cases hhh : h = h0 <;> simp [hhh]

theorem cleanup_handle_fields (h0 : HId) (s : St) (h : HId) :
    ((cleanup h0 s).handles h).running = (s.handles h).running ∧
    ((cleanup h0 s).handles h).body = (s.handles h).body := by
  simp only [cleanup]
  by_cases hhh : h = h0 <;> simp [hhh]

theorem setRunning_handle_fields (h0 : HId) (b : Bool) (s : St) (h : HId) :
    ((setRunning h0 b s).handles h).running = (if h = h0 then b else (s.handles h).running) ∧
    ((setRunning h0 b s).handles h).body = (s.handles h).body := by
  simp only [setRunning]
  by_cases hhh : h = h0 <;> simp [hhh]

/-- Every successful interpreter step restores the effect stack and the
`running` flags, never changes a handle's callback, and never decreases
the write serial number. -/
theorem runReq_basic (f : ℕ) : ∀ (req : Req) (s s' : St),
    runReq f req s = some s' →
    s'.effectStack = s.effectStack ∧
    (∀ h, (s'.handles h).running = (s.handles h).running) ∧
    (∀ h, (s'.handles h).body = (s.handles h).body) ∧
    s.writeCount ≤ s'.writeCount := by
  induction f with
  | zero => intro req s s' h; simp [runReq] at h
  | succ f ih =>
      intro req s s' hrun
      match req with
      | .cmds [] =>
          simp only [runReq, Option.some.injEq] at hrun
          subst hrun
          exact ⟨rfl, fun _ => rfl, fun _ => rfl, le_refl _⟩
      | .cmds (c :: cs) =>
          simp only [runReq] at hrun
          rcases h1 : runReq f (.cmd c) s with _ | s1 <;> rw [h1] at hrun
          · simp at hrun
          · rw [Option.some_bind] at hrun
            obtain ⟨a1, b1, c1, d1⟩ := ih (.cmd c) s s1 h1
            obtain ⟨a2, b2, c2, d2⟩ := ih (.cmds cs) s1 s' hrun
            exact ⟨a2.trans a1, fun h => (b2 h).trans (b1 h),
              fun h => (c2 h).trans (c1 h), le_trans d1 d2⟩
      | .cmd (.readC c) =>
          simp only [runReq, Option.some.injEq] at hrun
          subst hrun
          exact ⟨readCell_stack c s, fun h => (readCell_handle_fields c s h).1,
            fun h => (readCell_handle_fields c s h).2, le_of_eq (readCell_writeCount c s).symm⟩
      | .cmd (.ifRead c t e) =>
          simp only [runReq] at hrun
          have hbase : (readCell c s).2.effectStack = s.effectStack ∧
              (∀ h, ((readCell c s).2.handles h).running = (s.handles h).running) ∧
              (∀ h, ((readCell c s).2.handles h).body = (s.handles h).body) ∧
              s.writeCount ≤ (readCell c s).2.writeCount :=
            ⟨readCell_stack c s, fun h => (readCell_handle_fields c s h).1,
              fun h => (readCell_handle_fields c s h).2,
              le_of_eq (readCell_writeCount c s).symm⟩
          obtain ⟨a1, b1, c1, d1⟩ := hbase
          split at hrun <;>
            · obtain ⟨a2, b2, c2, d2⟩ := ih _ _ _ hrun
              exact ⟨a2.trans a1, fun h => (b2 h).trans (b1 h),
                fun h => (c2 h).trans (c1 h), le_trans d1 d2⟩
      | .cmd (.writeC c u) =>
          simp only [runReq] at hrun
          exact ih _ _ _ hrun
      | .write c u =>
          simp only [runReq] at hrun
          split at hrun
          · simp only [Option.some.injEq] at hrun
            subst hrun
            exact ⟨rfl, fun _ => rfl, fun _ => rfl, le_refl _⟩
          · obtain ⟨a2, b2, c2, d2⟩ := ih _ _ _ hrun
            refine ⟨a2.trans rfl, fun h => (b2 h).trans rfl,
              fun h => (c2 h).trans rfl, ?_⟩
            refine le_trans ?_ d2
            simp
      | .notify w [] =>
          simp only [runReq, Option.some.injEq] at hrun
          subst hrun
          exact ⟨rfl, fun _ => rfl, fun _ => rfl, le_refl _⟩
      | .notify w (h0 :: t) =>
          simp only [runReq] at hrun
          split at hrun
          · exact ih _ _ _ hrun
          · rcases h1 : runReq f (.exec h0) { s with log := s.log ++ [Ev.invoke w h0] }
                with _ | s1 <;> rw [h1] at hrun
            · simp at hrun
            · rw [Option.some_bind] at hrun
              obtain ⟨a1, b1, c1, d1⟩ := ih _ _ _ h1
              obtain ⟨a2, b2, c2, d2⟩ := ih _ _ _ hrun
              exact ⟨a2.trans a1, fun h => (b2 h).trans (b1 h),
                fun h => (c2 h).trans (c1 h), le_trans d1 d2⟩
      | .exec h0 =>
          simp only [runReq] at hrun
          split at hrun
          · rename_i hguard
            simp only [Option.some.injEq] at hrun
            subst hrun
            exact ⟨rfl, fun _ => rfl, fun _ => rfl, le_refl _⟩
          · rename_i hguard
            rcases h1 : runReq f (.cmds (s.handles h0).body)
                { setRunning h0 true (cleanup h0 s) with
                  effectStack := h0 :: (cleanup h0 s).effectStack
                  log := (cleanup h0 s).log ++ [Ev.run h0] } with _ | s3 <;>
              rw [h1] at hrun
            · simp at hrun
            · rw [Option.map_some'] at hrun
              simp only [Option.some.injEq] at hrun
              subst hrun
              obtain ⟨a1, b1, c1, d1⟩ := ih _ _ _ h1
              have hguard2 : (s.handles h0).running = false := by
                revert hguard
                cases (s.handles h0).running <;> simp
              refine ⟨?_, ?_, ?_, ?_⟩
              · show s3.effectStack.tail = s.effectStack
                rw [a1]
                simp [cleanup]
              · intro h
                simp only [setRunning]
                by_cases hhh : h = h0
                · subst hhh
                  simp [hguard2]
                · simp only [if_neg hhh]
                  rw [b1 h]
                  simp only [setRunning, cleanup]
                  simp [hhh]
              · intro h
                simp only [setRunning]
                by_cases hhh : h = h0
                · subst hhh
                  simp only [if_pos rfl]
                  rw [c1 h]
                  simp [setRunning, cleanup]
                · simp only [if_neg hhh]
                  rw [c1 h]
                  simp [setRunning, cleanup, hhh]
              · refine le_trans ?_ d1
                simp [setRunning, cleanup]

/-- Delta form of the tag discipline: every `Ev.invoke` event a step
appends carries a tag at least the step's starting write serial, unless
it was logged by the notification-loop request itself. -/
theorem runReq_tags (f : ℕ) : ∀ (req : Req) (s s' : St),
    runReq f req s = some s' →
    ∃ d, s'.log = s.log ++ d ∧
      ∀ w' h', Ev.invoke w' h' ∈ d →
        s.writeCount ≤ w' ∨ ∃ hs, req = Req.notify w' hs := by
  induction f with
  | zero => intro req s s' h; simp [runReq] at h
  | succ f ih =>
      intro req s s' hrun
      match req with
      | .cmds [] =>
          simp only [runReq, Option.some.injEq] at hrun
          subst hrun
          exact ⟨[], by simp, by simp⟩
      | .cmds (c :: cs) =>
          simp only [runReq] at hrun
          rcases h1 : runReq f (.cmd c) s with _ | s1 <;> rw [h1] at hrun
          · simp at hrun
          · rw [Option.some_bind] at hrun
            obtain ⟨d1, hd1, hp1⟩ := ih _ _ _ h1
            obtain ⟨d2, hd2, hp2⟩ := ih _ _ _ hrun
            refine ⟨d1 ++ d2, by rw [hd2, hd1, List.append_assoc], ?_⟩
            intro w' h' hmem
            rcases List.mem_append.1 hmem with h | h
            · rcases hp1 w' h' h with h2 | ⟨hs, heq⟩
              · exact Or.inl h2
              · exact Req.noConfusion heq
            · rcases hp2 w' h' h with h2 | ⟨hs, heq⟩
              · exact Or.inl (le_trans (runReq_basic f _ _ _ h1).2.2.2 h2)
              · exact Req.noConfusion heq
      | .cmd (.readC c) =>
          simp only [runReq, Option.some.injEq] at hrun
          subst hrun
          rcases hh : s.effectStack.head? with _ | h0
          · exact ⟨[], by simp [readCell, hh], by simp⟩
          · refine ⟨[Ev.read h0 c], by simp [readCell, hh], ?_⟩
            intro w' h' hmem
            simp only [List.mem_singleton] at hmem
            exact Ev.noConfusion hmem
      | .cmd (.ifRead c t e) =>
          simp only [runReq] at hrun
          have hread : ∃ d0, (readCell c s).2.log = s.log ++ d0 ∧
              ∀ w' h', Ev.invoke w' h' ∉ d0 := by
            rcases hh : s.effectStack.head? with _ | h0
            · exact ⟨[], by simp [readCell, hh], by simp⟩
            · refine ⟨[Ev.read h0 c], by simp [readCell, hh], ?_⟩
              intro w' h' hmem
              simp only [List.mem_singleton] at hmem
              exact Ev.noConfusion hmem
          obtain ⟨d0, hd0, hp0⟩ := hread
          have hwc : (readCell c s).2.writeCount = s.writeCount := readCell_writeCount c s
          split at hrun <;>
            · obtain ⟨d2, hd2, hp2⟩ := ih _ _ _ hrun
              refine ⟨d0 ++ d2, by rw [hd2, hd0, List.append_assoc], ?_⟩
              intro w' h' hmem
              rcases List.mem_append.1 hmem with h | h
              · exact absurd h (hp0 w' h')
              · rcases hp2 w' h' h with h2 | ⟨hs, heq⟩
                · exact Or.inl (hwc ▸ h2)
                · exact Req.noConfusion heq
      | .cmd (.writeC c u) =>
          simp only [runReq] at hrun
          obtain ⟨d2, hd2, hp2⟩ := ih _ _ _ hrun
          refine ⟨d2, hd2, ?_⟩
          intro w' h' hmem
          rcases hp2 w' h' hmem with h2 | ⟨hs, heq⟩
          · exact Or.inl h2
          · exact Req.noConfusion heq
      | .write c u =>
          simp only [runReq] at hrun
          split at hrun
          · simp only [Option.some.injEq] at hrun
            subst hrun
            exact ⟨[], by simp, by simp⟩
          · obtain ⟨d2, hd2, hp2⟩ := ih _ _ _ hrun
            refine ⟨Ev.store c (resolveUpd u (s.cells c).value) :: d2,
              by rw [hd2]; simp, ?_⟩
            intro w' h' hmem
            rcases List.mem_cons.1 hmem with h | h
            · exact Ev.noConfusion h
            · rcases hp2 w' h' h with h2 | ⟨hs, heq⟩
              · simp only at h2
                exact Or.inl (by omega)
              · obtain ⟨hw, -⟩ := Req.notify.inj heq
                exact Or.inl (le_of_eq hw)
      | .notify w [] =>
          simp only [runReq, Option.some.injEq] at hrun
          subst hrun
          exact ⟨[], by simp, by simp⟩
      | .notify w (h0 :: t) =>
          simp only [runReq] at hrun
          split at hrun
          · obtain ⟨d2, hd2, hp2⟩ := ih _ _ _ hrun
            refine ⟨d2, hd2, ?_⟩
            intro w' h' hmem
            rcases hp2 w' h' hmem with h2 | ⟨hs, heq⟩
            · exact Or.inl h2
            · obtain ⟨hw, -⟩ := Req.notify.inj heq
              exact Or.inr ⟨h0 :: t, by rw [hw]⟩
          · rcases h1 : runReq f (.exec h0) { s with log := s.log ++ [Ev.invoke w h0] }
                with _ | s1 <;> rw [h1] at hrun
            · simp at hrun
            · rw [Option.some_bind] at hrun
              obtain ⟨d1, hd1, hp1⟩ := ih _ _ _ h1
              obtain ⟨d2, hd2, hp2⟩ := ih _ _ _ hrun
              refine ⟨Ev.invoke w h0 :: (d1 ++ d2), ?_, ?_⟩
              · rw [hd2, hd1]
                simp
              · intro w' h' hmem
                rcases List.mem_cons.1 hmem with h | h
                · obtain ⟨hw, -⟩ := Ev.invoke.inj h
                  exact Or.inr ⟨h0 :: t, by rw [hw]⟩
                · rcases List.mem_append.1 h with h2 | h2
                  · rcases hp1 w' h' h2 with h3 | ⟨hs, heq⟩
                    · simp only at h3
                      exact Or.inl h3
                    · exact Req.noConfusion heq
                  · rcases hp2 w' h' h2 with h3 | ⟨hs, heq⟩
                    · have hmono := (runReq_basic f _ _ _ h1).2.2.2
                      simp only at hmono
                      exact Or.inl (le_trans hmono h3)
                    · obtain ⟨hw, -⟩ := Req.notify.inj heq
                      exact Or.inr ⟨h0 :: t, by rw [hw]⟩
      | .exec h0 =>
          simp only [runReq] at hrun
          split at hrun
          · simp only [Option.some.injEq] at hrun
            subst hrun
            refine ⟨[Ev.warn h0], by simp, ?_⟩
            intro w' h' hmem
            simp only [List.mem_singleton] at hmem
            exact Ev.noConfusion hmem
          · rcases h1 : runReq f (.cmds (s.handles h0).body)
                { setRunning h0 true (cleanup h0 s) with
                  effectStack := h0 :: (cleanup h0 s).effectStack
                  log := (cleanup h0 s).log ++ [Ev.run h0] } with _ | s3 <;>
              rw [h1] at hrun
            · simp at hrun
            · rw [Option.map_some'] at hrun
              simp only [Option.some.injEq] at hrun
              subst hrun
              obtain ⟨d1, hd1, hp1⟩ := ih _ _ _ h1
              refine ⟨Ev.run h0 :: d1, ?_, ?_⟩
              · simp only [setRunning]
                rw [hd1]
                simp [cleanup]
              · intro w' h' hmem
                rcases List.mem_cons.1 hmem with h | h
                · exact Ev.noConfusion h
                · rcases hp1 w' h' h with h2 | ⟨hs, heq⟩
                  · simp only [setRunning, cleanup] at h2
                    exact Or.inl h2
                  · exact Req.noConfusion heq

theorem invokesOf_append (w : ℕ) (d1 d2 : List Ev) :
    invokesOf w (d1 ++ d2) = invokesOf w d1 ++ invokesOf w d2 :=
  List.filterMap_append d1 d2 _

theorem invokesOf_cons_self (w : ℕ) (h : HId) (d : List Ev) :
    invokesOf w (Ev.invoke w h :: d) = h :: invokesOf w d := by
  simp [invokesOf]

theorem invokesOf_no (w : ℕ) (d : List Ev)
    (hno : ∀ h', Ev.invoke w h' ∉ d) : invokesOf w d = [] := by
  refine List.filterMap_eq_nil_iff.2 ?_
  intro e he
  match e with
  | Ev.read h0 c => rfl
  | Ev.store c v => rfl
  | Ev.run h0 => rfl
  | Ev.warn h0 => rfl
  | Ev.invoke w' h0 =>
      simp only
      rw [if_neg]
      intro hw
      subst hw
      exact hno h0 he

/-- The notification loop of a value-changing `write` with serial `w`
invokes (in order) exactly the subscribers of the snapshot list whose
callbacks are not currently executing; nested cascades contribute no
`Ev.invoke` events with that serial. -/
theorem notify_invokes (f : ℕ) : ∀ (w : ℕ) (hs : List HId) (s s' : St),
    runReq f (.notify w hs) s = some s' → w < s.writeCount →
    ∃ d, s'.log = s.log ++ d ∧
      invokesOf w d = hs.filter (fun h => !(s.handles h).running) := by
  induction f with
  | zero => intro w hs s s' h; simp [runReq] at h
  | succ f ih =>
      intro w hs s s' hrun hwlt
      match hs with
      | [] =>
          simp only [runReq, Option.some.injEq] at hrun
          subst hrun
          exact ⟨[], by simp, by simp [invokesOf]⟩
      | h0 :: t =>
          simp only [runReq] at hrun
          split at hrun
          · rename_i hr
            have hr' : (s.handles h0).running = true := by
              revert hr
              cases (s.handles h0).running <;> simp
            obtain ⟨d, hd, hi⟩ := ih w t s s' hrun hwlt
            refine ⟨d, hd, ?_⟩
            rw [hi, List.filter_cons]
            simp [hr']
          · rename_i hr
            have hr' : (s.handles h0).running = false := by
              revert hr
              cases (s.handles h0).running <;> simp
            rcases h1 : runReq f (.exec h0) { s with log := s.log ++ [Ev.invoke w h0] }
                with _ | s1 <;> rw [h1] at hrun
            · simp at hrun
            · rw [Option.some_bind] at hrun
              obtain ⟨d1, hd1, hp1⟩ := runReq_tags f _ _ _ h1
              have hno1 : invokesOf w d1 = [] := by
                refine invokesOf_no w d1 ?_
                intro h' hmem
                rcases hp1 w h' hmem with h2 | ⟨hs2, heq⟩
                · simp only at h2
                  omega
                · exact Req.noConfusion heq
              obtain ⟨hstk, hflags, hbody, hmono⟩ := runReq_basic f _ _ _ h1
              have hwlt1 : w < s1.writeCount := by
                refine lt_of_lt_of_le ?_ hmono
                simpa using hwlt
              obtain ⟨d2, hd2, hi2⟩ := ih w t s1 s' hrun hwlt1
              have hfeq : t.filter (fun h => !(s1.handles h).running) =
                  t.filter (fun h => !(s.handles h).running) := by
                refine List.filter_congr ?_
                intro x hx
                rw [hflags x]
              refine ⟨Ev.invoke w h0 :: (d1 ++ d2), ?_, ?_⟩
              · rw [hd2, hd1]
                simp
              · rw [invokesOf_cons_self, invokesOf_append, hno1, hi2, hfeq,
                  List.filter_cons]
                simp [hr']

theorem mem_invokesOf (w : ℕ) (h : HId) (d : List Ev) :
    Ev.invoke w h ∈ d ↔ h ∈ invokesOf w d := by
  constructor
  · intro hm
    refine List.mem_filterMap.2 ⟨Ev.invoke w h, hm, ?_⟩
    simp
  · intro hm
    obtain ⟨e, he, hfe⟩ := List.mem_filterMap.1 hm
    match e with
    | Ev.read h0 c0 => simp at hfe
    | Ev.store c0 v => simp at hfe
    | Ev.run h0 => simp at hfe
    | Ev.warn h0 => simp at hfe
    | Ev.invoke w' h0 =>
        have hfe' : (if w' = w then some h0 else none) = some h := hfe
        by_cases hw : w' = w
        · subst hw
          rw [if_pos rfl] at hfe'
          obtain rfl : h0 = h := by injection hfe'
          exact he
        · rw [if_neg hw] at hfe'
          exact absurd hfe' (by simp)

/-- A value-changing `write`: the step's log delta starts with the
`Ev.store` event and its `Ev.invoke` events with the write's serial are
exactly the snapshot subscribers not mid-execution, in order. -/
theorem write_delta (f : ℕ) (c : CId) (u : Upd) (s s' : St)
    (hrun : runReq f (Req.write c u) s = some s')
    (hne : resolveUpd u (s.cells c).value ≠ (s.cells c).value) :
    ∃ d, s'.log = s.log ++ d ∧
      d.head? = some (Ev.store c (resolveUpd u (s.cells c).value)) ∧
      invokesOf s.writeCount d =
        (s.cells c).subscribers.filter (fun h => !(s.handles h).running) := by
  match f with
  | 0 => simp [runReq] at hrun
  | f + 1 =>
      simp only [runReq] at hrun
      split at hrun
      · rename_i heq
        exact absurd heq hne
      · obtain ⟨d2, hd2, hi2⟩ := notify_invokes f s.writeCount
          (s.cells c).subscribers _ s' hrun (by simp)
        refine ⟨Ev.store c (resolveUpd u (s.cells c).value) :: d2, ?_, rfl, ?_⟩
        · rw [hd2]
          simp
        · have hcons : invokesOf s.writeCount
              (Ev.store c (resolveUpd u (s.cells c).value) :: d2) =
              invokesOf s.writeCount d2 := by
            simp [invokesOf]
          rw [hcons, hi2]

/-- A `write` whose resolved value is identical (`===`) to the current
one is a complete no-op: the state, the log included, is returned
unchanged. -/
theorem write_noop (f : ℕ) (c : CId) (u : Upd) (s s' : St)
    (hrun : runReq f (Req.write c u) s = some s')
    (heqv : resolveUpd u (s.cells c).value = (s.cells c).value) : s' = s := by
  match f with
  | 0 => simp [runReq] at hrun
  | f + 1 =>
      simp only [runReq] at hrun
      split at hrun
      · simp only [Option.some.injEq] at hrun
        exact hrun.symm
      · rename_i heq
        exact absurd heqv heq

theorem mem_addIfAbsent_ne {α : Type} [DecidableEq α] (a b : α) (l : List α)
    (hab : a ≠ b) : a ∈ addIfAbsent b l ↔ a ∈ l := by
  unfold addIfAbsent
  split
  · exact Iff.rfl
  · simp only [List.mem_append, List.mem_singleton]
    constructor
    · rintro (h | rfl)
      · exact h
      · exact absurd rfl hab
    · exact Or.inl

/-- Frame lemma: while a handle is mid-execution (and, for command
requests, not the handle reads would be attributed to), no step changes
its subscriber-set memberships or its dependency record, attributes a
read to it, or re-runs it; a `console.warn` naming it can only come from
invoking it directly. -/
theorem runReq_frame (f : ℕ) : ∀ (req : Req) (s s' : St) (h : HId),
    runReq f req s = some s' →
    (s.handles h).running = true →
    (match req with
     | Req.cmds _ => s.effectStack.head? ≠ some h
     | Req.cmd _ => s.effectStack.head? ≠ some h
     | _ => True) →
    ∃ d, s'.log = s.log ++ d ∧
      (∀ c, h ∈ (s'.cells c).subscribers ↔ h ∈ (s.cells c).subscribers) ∧
      (s'.handles h).dependencies = (s.handles h).dependencies ∧
      (∀ c, Ev.read h c ∉ d) ∧
      Ev.run h ∉ d ∧
      (Ev.warn h ∈ d → req = Req.exec h) := by
  induction f with
  | zero => intro req s s' h hrun; simp [runReq] at hrun
  | succ f ih =>
      intro req s s' h hrun hrunning hhead
      match req with
      | .cmds [] =>
          simp only [runReq, Option.some.injEq] at hrun
          subst hrun
          exact ⟨[], by simp, fun _ => Iff.rfl, rfl, by simp, by simp, by simp⟩
      | .cmds (c :: cs) =>
          simp only [runReq] at hrun
          rcases h1 : runReq f (.cmd c) s with _ | s1 <;> rw [h1] at hrun
          · simp at hrun
          · rw [Option.some_bind] at hrun
            obtain ⟨hstk1, hflags1, -, -⟩ := runReq_basic f _ _ _ h1
            obtain ⟨d1, hd1, hsub1, hdep1, hrd1, hrn1, hwn1⟩ :=
              ih (.cmd c) s s1 h h1 hrunning hhead
            obtain ⟨d2, hd2, hsub2, hdep2, hrd2, hrn2, hwn2⟩ :=
              ih (.cmds cs) s1 s' h hrun (by rw [hflags1 h]; exact hrunning)
                (by rw [hstk1]; exact hhead)
            refine ⟨d1 ++ d2, by rw [hd2, hd1, List.append_assoc], ?_, ?_, ?_, ?_, ?_⟩
            · exact fun c0 => (hsub2 c0).trans (hsub1 c0)
            · exact hdep2.trans hdep1
            · intro c0 hmem
              rcases List.mem_append.1 hmem with hm | hm
              · exact hrd1 c0 hm
              · exact hrd2 c0 hm
            · intro hmem
              rcases List.mem_append.1 hmem with hm | hm
              · exact hrn1 hm
              · exact hrn2 hm
            · intro hmem
              rcases List.mem_append.1 hmem with hm | hm
              · exact Req.noConfusion (hwn1 hm)
              · exact Req.noConfusion (hwn2 hm)
      | .cmd (.readC c) =>
          simp only [runReq, Option.some.injEq] at hrun
          subst hrun
          rcases hh : s.effectStack.head? with _ | h0
          · exact ⟨[], by simp [readCell, hh], fun _ => by simp [readCell, hh],
              by simp [readCell, hh], by simp, by simp, by simp⟩
          · have hne : h0 ≠ h := by
              intro heq
              rw [hh, heq] at hhead
              exact hhead rfl
            refine ⟨[Ev.read h0 c], by simp [readCell, hh], ?_, ?_, ?_, by simp, by simp⟩
            · intro c0
              simp only [readCell, hh]
              by_cases hc0 : c0 = c
              · subst hc0
                simp only [if_pos rfl]
                exact mem_addIfAbsent_ne h h0 _ (fun hcon => hne hcon.symm)
              · simp [hc0]
            · simp only [readCell, hh]
              rw [if_neg (show ¬ h = h0 from fun hcon => hne hcon.symm)]
            · intro c0
              simp only [List.mem_singleton]
              intro hcon
              exact hne (Ev.read.inj hcon).1.symm
      | .cmd (.ifRead c t e) =>
          simp only [runReq] at hrun
          have hread : ∃ d0, (readCell c s).2.log = s.log ++ d0 ∧
              (∀ c0, h ∈ ((readCell c s).2.cells c0).subscribers ↔
                h ∈ (s.cells c0).subscribers) ∧
              ((readCell c s).2.handles h).dependencies = (s.handles h).dependencies ∧
              (∀ c0, Ev.read h c0 ∉ d0) ∧ Ev.run h ∉ d0 ∧ Ev.warn h ∉ d0 := by
            rcases hh : s.effectStack.head? with _ | h0
            · exact ⟨[], by simp [readCell, hh], fun _ => by simp [readCell, hh],
                by simp [readCell, hh], by simp, by simp, by simp⟩
            · have hne : h0 ≠ h := by
                intro heq
                rw [hh, heq] at hhead
                exact hhead rfl
              refine ⟨[Ev.read h0 c], by simp [readCell, hh], ?_, ?_, ?_, by simp, by simp⟩
              · intro c0
                simp only [readCell, hh]
                by_cases hc0 : c0 = c
                · subst hc0
                  simp only [if_pos rfl]
                  exact mem_addIfAbsent_ne h h0 _ (fun hcon => hne hcon.symm)
                · simp [hc0]
              · simp only [readCell, hh]
                rw [if_neg (show ¬ h = h0 from fun hcon => hne hcon.symm)]
              · intro c0
                simp only [List.mem_singleton]
                intro hcon
                exact hne (Ev.read.inj hcon).1.symm
          obtain ⟨d0, hd0, hsub0, hdep0, hrd0, hrn0, hwn0⟩ := hread
          have hrunning1 : ((readCell c s).2.handles h).running = true := by
            rw [(readCell_handle_fields c s h).1]
            exact hrunning
          have hhead1 : (readCell c s).2.effectStack.head? ≠ some h := by
            rw [readCell_stack]
            exact hhead
          split at hrun <;>
            · obtain ⟨d2, hd2, hsub2, hdep2, hrd2, hrn2, hwn2⟩ :=
                ih _ _ _ h hrun hrunning1 hhead1
              refine ⟨d0 ++ d2, by rw [hd2, hd0, List.append_assoc], ?_, ?_, ?_, ?_, ?_⟩
              · exact fun c0 => (hsub2 c0).trans (hsub0 c0)
              · exact hdep2.trans hdep0
              · intro c0 hmem
                rcases List.mem_append.1 hmem with hm | hm
                · exact hrd0 c0 hm
                · exact hrd2 c0 hm
              · intro hmem
                rcases List.mem_append.1 hmem with hm | hm
                · exact hrn0 hm
                · exact hrn2 hm
              · intro hmem
                rcases List.mem_append.1 hmem with hm | hm
                · exact absurd hm hwn0
                · exact Req.noConfusion (hwn2 hm)
      | .cmd (.writeC c u) =>
          simp only [runReq] at hrun
          obtain ⟨d, hd, hsub, hdep, hrd, hrn, hwn⟩ :=
            ih (.write c u) s s' h hrun hrunning trivial
          exact ⟨d, hd, hsub, hdep, hrd, hrn, fun hm => Req.noConfusion (hwn hm)⟩
      | .write c u =>
          simp only [runReq] at hrun
          split at hrun
          · simp only [Option.some.injEq] at hrun
            subst hrun
            exact ⟨[], by simp, fun _ => Iff.rfl, rfl, by simp, by simp, by simp⟩
          · obtain ⟨d2, hd2, hsub2, hdep2, hrd2, hrn2, hwn2⟩ :=
              ih _ _ _ h hrun hrunning trivial
            refine ⟨Ev.store c (resolveUpd u (s.cells c).value) :: d2,
              by rw [hd2]; simp, ?_, hdep2.trans rfl, ?_, ?_, ?_⟩
            · intro c0
              refine (hsub2 c0).trans ?_
              by_cases hc0 : c0 = c
              · subst hc0
                simp
              · simp [hc0]
            · intro c0 hmem
              rcases List.mem_cons.1 hmem with hm | hm
              · exact Ev.noConfusion hm
              · exact hrd2 c0 hm
            · intro hmem
              rcases List.mem_cons.1 hmem with hm | hm
              · exact Ev.noConfusion hm
              · exact hrn2 hm
            · intro hmem
              rcases List.mem_cons.1 hmem with hm | hm
              · exact Ev.noConfusion hm
              · exact Req.noConfusion (hwn2 hm)
      | .notify w [] =>
          simp only [runReq, Option.some.injEq] at hrun
          subst hrun
          exact ⟨[], by simp, fun _ => Iff.rfl, rfl, by simp, by simp, by simp⟩
      | .notify w (h0 :: t) =>
          simp only [runReq] at hrun
          split at hrun
          · obtain ⟨d, hd, hsub, hdep, hrd, hrn, hwn⟩ :=
              ih _ _ _ h hrun hrunning trivial
            exact ⟨d, hd, hsub, hdep, hrd, hrn, fun hm => Req.noConfusion (hwn hm)⟩
          · rename_i hguard
            have hguard' : (s.handles h0).running = false := by
              revert hguard
              cases (s.handles h0).running <;> simp
            have hne : h0 ≠ h := by
              intro heq
              rw [heq, hrunning] at hguard'
              exact Bool.noConfusion hguard'
            rcases h1 : runReq f (.exec h0) { s with log := s.log ++ [Ev.invoke w h0] }
                with _ | s1 <;> rw [h1] at hrun
            · simp at hrun
            · rw [Option.some_bind] at hrun
              obtain ⟨hstk1, hflags1, -, -⟩ := runReq_basic f _ _ _ h1
              obtain ⟨d1, hd1, hsub1, hdep1, hrd1, hrn1, hwn1⟩ :=
                ih _ _ _ h h1 hrunning trivial
              obtain ⟨d2, hd2, hsub2, hdep2, hrd2, hrn2, hwn2⟩ :=
                ih _ _ _ h hrun (by rw [hflags1 h]; exact hrunning) trivial
              refine ⟨Ev.invoke w h0 :: (d1 ++ d2), by rw [hd2, hd1]; simp,
                ?_, ?_, ?_, ?_, ?_⟩
              · exact fun c0 => (hsub2 c0).trans (hsub1 c0)
              · exact hdep2.trans hdep1
              · intro c0 hmem
                rcases List.mem_cons.1 hmem with hm | hm
                · exact Ev.noConfusion hm
                · rcases List.mem_append.1 hm with hm2 | hm2
                  · exact hrd1 c0 hm2
                  · exact hrd2 c0 hm2
              · intro hmem
                rcases List.mem_cons.1 hmem with hm | hm
                · exact Ev.noConfusion hm
                · rcases List.mem_append.1 hm with hm2 | hm2
                  · exact hrn1 hm2
                  · exact hrn2 hm2
              · intro hmem
                rcases List.mem_cons.1 hmem with hm | hm
                · exact Ev.noConfusion hm
                · rcases List.mem_append.1 hm with hm2 | hm2
                  · obtain heq := hwn1 hm2
                    obtain rfl := (Req.exec.inj heq)
                    exact absurd rfl hne
                  · exact Req.noConfusion (hwn2 hm2)
      | .exec h0 =>
          simp only [runReq] at hrun
          split at hrun
          · simp only [Option.some.injEq] at hrun
            subst hrun
            refine ⟨[Ev.warn h0], by simp, fun _ => Iff.rfl, rfl, by simp, by simp, ?_⟩
            intro hmem
            simp only [List.mem_singleton] at hmem
            obtain rfl := (Ev.warn.inj hmem).symm
            rfl
          · rename_i hguard
            have hguard' : (s.handles h0).running = false := by
              revert hguard
              cases (s.handles h0).running <;> simp
            have hne : h0 ≠ h := by
              intro heq
              rw [heq, hrunning] at hguard'
              exact Bool.noConfusion hguard'
            rcases h1 : runReq f (.cmds (s.handles h0).body)
                { setRunning h0 true (cleanup h0 s) with
                  effectStack := h0 :: (cleanup h0 s).effectStack
                  log := (cleanup h0 s).log ++ [Ev.run h0] } with _ | s3 <;>
              rw [h1] at hrun
            · simp at hrun
            · rw [Option.map_some'] at hrun
              simp only [Option.some.injEq] at hrun
              subst hrun
              have hrunning2 : (({ setRunning h0 true (cleanup h0 s) with
                  effectStack := h0 :: (cleanup h0 s).effectStack
                  log := (cleanup h0 s).log ++ [Ev.run h0] } : St).handles h).running
                  = true := by
                simp only [setRunning]
                rw [if_neg hne.symm]
                rw [(cleanup_handle_fields h0 s h).1]
                exact hrunning
              have hhead2 : (({ setRunning h0 true (cleanup h0 s) with
                  effectStack := h0 :: (cleanup h0 s).effectStack
                  log := (cleanup h0 s).log ++ [Ev.run h0] } : St).effectStack.head?
                  ≠ some h) := by
                simp only [List.head?_cons, ne_eq, Option.some.injEq]
                exact fun hcon => hne hcon
              obtain ⟨d1, hd1, hsub1, hdep1, hrd1, hrn1, hwn1⟩ :=
                ih _ _ _ h h1 hrunning2 hhead2
              refine ⟨Ev.run h0 :: d1, ?_, ?_, ?_, ?_, ?_, ?_⟩
              · simp only [setRunning]
                rw [hd1]
                simp [cleanup]
              · intro c0
                refine (hsub1 c0).trans ?_
                simp only [setRunning, cleanup]
                split
                · exact List.mem_erase_of_ne hne.symm
                · exact Iff.rfl
              · have hne2 : ¬ h = h0 := fun hcon => hne hcon.symm
                have hds : (s3.handles h).dependencies = (s.handles h).dependencies := by
                  rw [hdep1]
                  simp only [setRunning, cleanup]
                  rw [if_neg hne2, if_neg hne2]
                simp only [setRunning]
                rw [if_neg hne2]
                exact hds
              · intro c0 hmem
                rcases List.mem_cons.1 hmem with hm | hm
                · exact Ev.noConfusion hm
                · exact hrd1 c0 hm
              · intro hmem
                rcases List.mem_cons.1 hmem with hm | hm
                · exact hne ((Ev.run.inj hm).symm)
                · exact hrn1 hm
              · intro hmem
                rcases List.mem_cons.1 hmem with hm | hm
                · exact Ev.noConfusion hm
                · exact Req.noConfusion (hwn1 hm)

theorem mem_addIfAbsent_self {α : Type} [DecidableEq α] (a : α) (l : List α) :
    a ∈ addIfAbsent a l := by
  unfold addIfAbsent
  split
  · assumption
  · simp

theorem mem_addIfAbsent {α : Type} [DecidableEq α] (a b : α) (l : List α) :
    b ∈ addIfAbsent a l ↔ b ∈ l ∨ b = a := by
  unfold addIfAbsent
  split
  · rename_i hmem
    constructor
    · exact Or.inl
    · rintro (h | rfl)
      · exact h
      · exact hmem
  · simp

theorem addIfAbsent_nodup {α : Type} [DecidableEq α] (a : α) (l : List α)
    (hn : l.Nodup) : (addIfAbsent a l).Nodup := by
  unfold addIfAbsent
  split
  · exact hn
  · rename_i hmem
    simp [List.nodup_append, hn, hmem]

theorem readCell_WF (c : CId) (s : St) (hwf : WF s) : WF (readCell c s).2 := by
  obtain ⟨h1, h2, h3⟩ := hwf
  rcases hh : s.effectStack.head? with _ | h0
  · simpa [readCell, hh] using ⟨h1, h2, h3⟩
  · refine ⟨?_, ?_, ?_⟩
    · intro h' c' hmem
      simp only [readCell, hh] at hmem ⊢
      have hgoal : c' ∈ (s.handles h').dependencies →
          c' ∈ ((if h' = h0 then
            { s.handles h0 with
              dependencies := addIfAbsent c (s.handles h0).dependencies }
          else s.handles h') : Handle).dependencies := by
        intro hd
        by_cases hh' : h' = h0
        · rw [if_pos hh']
          rw [hh'] at hd
          exact (mem_addIfAbsent c c' _).2 (Or.inl hd)
        · rw [if_neg hh']
          exact hd
      by_cases hc' : c' = c
      · rw [if_pos hc'] at hmem
        rcases (mem_addIfAbsent h0 h' _).1 hmem with hm | hm
        · exact hgoal (hc' ▸ h1 h' c hm)
        · rw [if_pos hm]
          exact (mem_addIfAbsent c c' _).2 (Or.inr hc')
      · rw [if_neg hc'] at hmem
        exact hgoal (h1 h' c' hmem)
    · intro c'
      simp only [readCell, hh]
      by_cases hc' : c' = c
      · rw [if_pos hc']
        exact addIfAbsent_nodup h0 _ (h2 c)
      · rw [if_neg hc']
        exact h2 c'
    · intro h'
      simp only [readCell, hh]
      by_cases hh' : h' = h0
      · rw [if_pos hh']
        exact addIfAbsent_nodup c _ (h3 h0)
      · rw [if_neg hh']
        exact h3 h'

theorem cleanup_WF (h0 : HId) (s : St) (hwf : WF s) : WF (cleanup h0 s) := by
  obtain ⟨h1, h2, h3⟩ := hwf
  refine ⟨?_, ?_, ?_⟩
  · intro h' c' hmem
    simp only [cleanup] at hmem ⊢
    by_cases hh' : h' = h0
    · exfalso
      by_cases hc' : c' ∈ (s.handles h0).dependencies
      · rw [if_pos hc'] at hmem
        rw [hh'] at hmem
        exact (h2 c').not_mem_erase hmem
      · rw [if_neg hc'] at hmem
        exact hc' (hh' ▸ h1 h' c' hmem)
    · have hmem' : h' ∈ (s.cells c').subscribers := by
        by_cases hc' : c' ∈ (s.handles h0).dependencies
        · rw [if_pos hc'] at hmem
          exact List.mem_of_mem_erase hmem
        · rw [if_neg hc'] at hmem
          exact hmem
      rw [if_neg hh']
      exact h1 h' c' hmem'
  · intro c'
    simp only [cleanup]
    by_cases hc' : c' ∈ (s.handles h0).dependencies
    · rw [if_pos hc']
      exact (h2 c').erase h0
    · rw [if_neg hc']
      exact h2 c'
  · intro h'
    simp only [cleanup]
    by_cases hh' : h' = h0
    · rw [if_pos hh']
      exact List.nodup_nil
    · rw [if_neg hh']
      exact h3 h'

theorem setRunning_WF (h0 : HId) (b : Bool) (s : St) (hwf : WF s) :
    WF (setRunning h0 b s) := by
  obtain ⟨h1, h2, h3⟩ := hwf
  refine ⟨?_, h2, ?_⟩
  · intro h' c' hmem
    simp only [setRunning] at hmem ⊢
    by_cases hh' : h' = h0
    · subst hh'
      rw [if_pos rfl]
      exact h1 h' c' hmem
    · rw [if_neg hh']
      exact h1 h' c' hmem
  · intro h'
    simp only [setRunning]
    by_cases hh' : h' = h0
    · rw [if_pos hh']
      exact h3 h'
    · rw [if_neg hh']
      exact h3 h'

theorem cleanup_unsub (h0 : HId) (s : St) (hwf : WF s) :
    ∀ c, h0 ∉ ((cleanup h0 s).cells c).subscribers := by
  obtain ⟨h1, h2, h3⟩ := hwf
  intro c hmem
  simp only [cleanup] at hmem
  by_cases hc : c ∈ (s.handles h0).dependencies
  · rw [if_pos hc] at hmem
    exact (h2 c).not_mem_erase hmem
  · rw [if_neg hc] at hmem
    exact hc (h1 h0 c hmem)

/-- Every interpreter step preserves the structural invariant. -/
theorem runReq_WF (f : ℕ) : ∀ (req : Req) (s s' : St),
    runReq f req s = some s' → WF s → WF s' := by
  induction f with
  | zero => intro req s s' h; simp [runReq] at h
  | succ f ih =>
      intro req s s' hrun hwf
      match req with
      | .cmds [] =>
          simp only [runReq, Option.some.injEq] at hrun
          subst hrun
          exact hwf
      | .cmds (c :: cs) =>
          simp only [runReq] at hrun
          rcases h1 : runReq f (.cmd c) s with _ | s1 <;> rw [h1] at hrun
          · simp at hrun
          · rw [Option.some_bind] at hrun
            exact ih _ _ _ hrun (ih _ _ _ h1 hwf)
      | .cmd (.readC c) =>
          simp only [runReq, Option.some.injEq] at hrun
          subst hrun
          exact readCell_WF c s hwf
      | .cmd (.ifRead c t e) =>
          simp only [runReq] at hrun
          split at hrun <;> exact ih _ _ _ hrun (readCell_WF c s hwf)
      | .cmd (.writeC c u) =>
          simp only [runReq] at hrun
          exact ih _ _ _ hrun hwf
      | .write c u =>
          simp only [runReq] at hrun
          split at hrun
          · simp only [Option.some.injEq] at hrun
            subst hrun
            exact hwf
          · refine ih _ _ _ hrun ?_
            obtain ⟨h1, h2, h3⟩ := hwf
            refine ⟨?_, ?_, h3⟩
            · intro h' c' hmem
              simp only at hmem
              by_cases hc' : c' = c
              · subst hc'
                rw [if_pos rfl] at hmem
                exact h1 h' c' hmem
              · rw [if_neg hc'] at hmem
                exact h1 h' c' hmem
            · intro c'
              simp only
              by_cases hc' : c' = c
              · subst hc'
                rw [if_pos rfl]
                exact h2 c'
              · rw [if_neg hc']
                exact h2 c'
      | .notify w [] =>
          simp only [runReq, Option.some.injEq] at hrun
          subst hrun
          exact hwf
      | .notify w (h0 :: t) =>
          simp only [runReq] at hrun
          split at hrun
          · exact ih _ _ _ hrun hwf
          · rcases h1 : runReq f (.exec h0) { s with log := s.log ++ [Ev.invoke w h0] }
                with _ | s1 <;> rw [h1] at hrun
            · simp at hrun
            · rw [Option.some_bind] at hrun
              refine ih _ _ _ hrun (ih _ _ _ h1 ?_)
              exact hwf
      | .exec h0 =>
          simp only [runReq] at hrun
          split at hrun
          · simp only [Option.some.injEq] at hrun
            subst hrun
            exact hwf
          · rcases h1 : runReq f (.cmds (s.handles h0).body)
                { setRunning h0 true (cleanup h0 s) with
                  effectStack := h0 :: (cleanup h0 s).effectStack
                  log := (cleanup h0 s).log ++ [Ev.run h0] } with _ | s3 <;>
              rw [h1] at hrun
            · simp at hrun
            · rw [Option.map_some'] at hrun
              simp only [Option.some.injEq] at hrun
              subst hrun
              have hwf2 : WF { setRunning h0 true (cleanup h0 s) with
                  effectStack := h0 :: (cleanup h0 s).effectStack
                  log := (cleanup h0 s).log ++ [Ev.run h0] } :=
                setRunning_WF h0 true (cleanup h0 s) (cleanup_WF h0 s hwf)
              have hwf3 := ih _ _ _ h1 hwf2
              exact setRunning_WF h0 false { s3 with effectStack := s3.effectStack.tail } hwf3

/-- While a handle's own body runs (it is on top of the effect stack,
its flag set), its subscriber-set memberships and its dependency record
grow exactly by the cells the body reads, as recorded by the `Ev.read`
events of the step's log delta. -/
theorem body_reads (f : ℕ) : ∀ (req : Req) (s s' : St) (h : HId),
    runReq f req s = some s' →
    (match req with
     | Req.cmds _ => True
     | Req.cmd _ => True
     | _ => False) →
    (s.handles h).running = true →
    s.effectStack.head? = some h →
    WF s →
    ∃ d, s'.log = s.log ++ d ∧
      (∀ c, h ∈ (s'.cells c).subscribers ↔
        (h ∈ (s.cells c).subscribers ∨ Ev.read h c ∈ d)) ∧
      (∀ c, c ∈ (s'.handles h).dependencies ↔
        (c ∈ (s.handles h).dependencies ∨ Ev.read h c ∈ d)) := by
  induction f with
  | zero => intro req s s' h hrun; simp [runReq] at hrun
  | succ f ih =>
      intro req s s' h hrun hside hrunning hhead hwf
      match req with
      | .cmds [] =>
          simp only [runReq, Option.some.injEq] at hrun
          subst hrun
          exact ⟨[], by simp, fun c => by simp, fun c => by simp⟩
      | .cmds (c :: cs) =>
          simp only [runReq] at hrun
          rcases h1 : runReq f (.cmd c) s with _ | s1 <;> rw [h1] at hrun
          · simp at hrun
          · rw [Option.some_bind] at hrun
            obtain ⟨hstk1, hflags1, -, -⟩ := runReq_basic f _ _ _ h1
            obtain ⟨d1, hd1, hsub1, hdep1⟩ :=
              ih (.cmd c) s s1 h h1 trivial hrunning hhead hwf
            obtain ⟨d2, hd2, hsub2, hdep2⟩ :=
              ih (.cmds cs) s1 s' h hrun trivial
                (by rw [hflags1 h]; exact hrunning)
                (by rw [hstk1]; exact hhead)
                (runReq_WF f _ _ _ h1 hwf)
            refine ⟨d1 ++ d2, by rw [hd2, hd1, List.append_assoc], ?_, ?_⟩
            · intro c0
              rw [hsub2 c0, hsub1 c0]
              simp [List.mem_append, or_assoc]
            · intro c0
              rw [hdep2 c0, hdep1 c0]
              simp [List.mem_append, or_assoc]
      | .cmd (.readC c) =>
          simp only [runReq, Option.some.injEq] at hrun
          subst hrun
          refine ⟨[Ev.read h c], by simp [readCell, hhead], ?_, ?_⟩
          · intro c0
            simp only [readCell, hhead]
            by_cases hc0 : c0 = c
            · rw [if_pos hc0]
              simp only [List.mem_singleton]
              constructor
              · intro hmem
                exact Or.inr (by rw [hc0])
              · intro hmem
                exact hc0 ▸ mem_addIfAbsent_self h _
            · rw [if_neg hc0]
              simp only [List.mem_singleton, Ev.read.injEq]
              constructor
              · exact fun hmem => Or.inl hmem
              · rintro (hmem | ⟨-, hcon⟩)
                · exact hmem
                · exact absurd hcon hc0
          · intro c0
            simp only [readCell, hhead, eq_self_iff_true, if_true]
            rw [mem_addIfAbsent]
            simp only [List.mem_singleton, Ev.read.injEq, true_and]
      | .cmd (.ifRead c t e) =>
          simp only [runReq] at hrun
          have hstep : (readCell c s).2 =
              { s with
                cells := fun c' =>
                  if c' = c then
                    { s.cells c with
                      subscribers := addIfAbsent h (s.cells c).subscribers }
                  else s.cells c'
                handles := fun h' =>
                  if h' = h then
                    { s.handles h with
                      dependencies := addIfAbsent c (s.handles h).dependencies }
                  else s.handles h'
                log := s.log ++ [Ev.read h c] } := by
            simp [readCell, hhead]
          obtain ⟨hstk1, hflags1, -, -⟩ :=
            (⟨readCell_stack c s, fun x => (readCell_handle_fields c s x).1,
              fun x => (readCell_handle_fields c s x).2,
              le_of_eq (readCell_writeCount c s).symm⟩ :
              (readCell c s).2.effectStack = s.effectStack ∧
              (∀ x, (((readCell c s).2.handles x).running = (s.handles x).running)) ∧
              (∀ x, (((readCell c s).2.handles x).body = (s.handles x).body)) ∧
              s.writeCount ≤ (readCell c s).2.writeCount)
          split at hrun <;>
            · obtain ⟨d2, hd2, hsub2, hdep2⟩ :=
                ih _ _ _ h hrun trivial
                  (by rw [hflags1 h]; exact hrunning)
                  (by rw [hstk1]; exact hhead)
                  (readCell_WF c s hwf)
              refine ⟨Ev.read h c :: d2, ?_, ?_, ?_⟩
              · rw [hd2, hstep]
                simp
              · intro c0
                rw [hsub2 c0, hstep]
                simp only [List.mem_cons]
                by_cases hc0 : c0 = c
                · rw [if_pos hc0]
                  constructor
                  · intro hor
                    exact Or.inr (Or.inl (by rw [hc0]))
                  · intro hor
                    exact Or.inl (hc0 ▸ mem_addIfAbsent_self h _)
                · rw [if_neg hc0]
                  simp only [Ev.read.injEq]
                  constructor
                  · rintro (hmem | hmem)
                    · exact Or.inl hmem
                    · exact Or.inr (Or.inr hmem)
                  · rintro (hmem | ⟨-, hcon⟩ | hmem)
                    · exact Or.inl hmem
                    · exact absurd hcon hc0
                    · exact Or.inr hmem
              · intro c0
                rw [hdep2 c0, hstep]
                simp only [List.mem_cons, eq_self_iff_true, if_true]
                rw [mem_addIfAbsent]
                simp only [Ev.read.injEq, true_and]
                constructor
                · rintro ((hmem | hmem) | hmem)
                  · exact Or.inl hmem
                  · exact Or.inr (Or.inl hmem)
                  · exact Or.inr (Or.inr hmem)
                · rintro (hmem | hmem | hmem)
                  · exact Or.inl (Or.inl hmem)
                  · exact Or.inl (Or.inr hmem)
                  · exact Or.inr hmem
      | .cmd (.writeC c u) =>
          simp only [runReq] at hrun
          obtain ⟨d, hd, hsub, hdep, hrd, -, -⟩ :=
            runReq_frame f (.write c u) s s' h hrun hrunning trivial
          refine ⟨d, hd, ?_, ?_⟩
          · intro c0
            rw [hsub c0]
            constructor
            · exact Or.inl
            · rintro (hmem | hmem)
              · exact hmem
              · exact absurd hmem (hrd c0)
          · intro c0
            rw [hdep]
            constructor
            · exact Or.inl
            · rintro (hmem | hmem)
              · exact hmem
              · exact absurd hmem (hrd c0)
      | .write c u => exact hside.elim
      | .notify w hs => exact hside.elim
      | .exec h0 => exact hside.elim

/-! ## Claims about the reactive runtime -/

/-- C2: a setter call resolves a functional argument against the
current value; compares the result to the current value by `===`; when
identical it changes nothing at all (and in particular invokes no
subscriber); when different it stores the value (the `Ev.store` event
heading the step's log delta) and the notification loop invokes exactly
the registered subscribers that are not mid-execution, in
subscriber-registration (insertion) order. -/
theorem c2_write_semantics (f : ℕ) (c : CId) (u : Upd) (s s' : St)
    (hrun : runReq f (Req.write c u) s = some s') :
    (∀ g, u = Upd.fn g → resolveUpd u (s.cells c).value = g (s.cells c).value) ∧
    (resolveUpd u (s.cells c).value = (s.cells c).value → s' = s) ∧
    (resolveUpd u (s.cells c).value ≠ (s.cells c).value →
      ∃ d, s'.log = s.log ++ d ∧
        d.head? = some (Ev.store c (resolveUpd u (s.cells c).value)) ∧
        invokesOf s.writeCount d =
          (s.cells c).subscribers.filter (fun h => !(s.handles h).running)) :=
  ⟨fun g hg => by rw [hg]; rfl,
    fun heqv => write_noop f c u s s' hrun heqv,
    fun hne => write_delta f c u s s' hrun hne⟩

/-- Witness for C2: writing with the updater `bumpVal` to a signal
holding `prim 0` with two idle subscribers stores `prim 1` and invokes
the subscribers 0 and 1 in registration order. -/
theorem c2_write_semantics_witness :
    ∃ s', runReq 10 (Req.write 0 (Upd.fn bumpVal)) c2s0 = some s' ∧
      ∃ d, s'.log = c2s0.log ++ d ∧
        d.head? = some (Ev.store 0 (Val.prim 1)) ∧
        invokesOf c2s0.writeCount d = [0, 1] := by
  refine ⟨_, rfl, ?_⟩
  obtain ⟨d, hd, hh, hi⟩ :=
    (c2_write_semantics 10 0 (Upd.fn bumpVal) c2s0 _ rfl).2.2 (by decide)
  refine ⟨d, hd, hh, ?_⟩
  rw [hi]
  rfl

/-- C10: the handles a value-changing write invokes form a snapshot of
the cell's subscriber set taken when its notification loop starts: a
handle is invoked by that write (an `Ev.invoke` event carrying the
write's serial) exactly when it was registered at the moment of the
write and not mid-execution — so a handle subscribing during the cascade
is not invoked by the same write, and a handle in the snapshot is
invoked even if the cascade unsubscribes it. -/
theorem c10_snapshot_notification (f : ℕ) (c : CId) (u : Upd) (s s' : St)
    (hrun : runReq f (Req.write c u) s = some s')
    (hne : resolveUpd u (s.cells c).value ≠ (s.cells c).value) :
    ∃ d, s'.log = s.log ++ d ∧
      ∀ h, Ev.invoke s.writeCount h ∈ d ↔
        (h ∈ (s.cells c).subscribers ∧ (s.handles h).running = false) := by
  obtain ⟨d, hd, hh, hi⟩ := write_delta f c u s s' hrun hne
  refine ⟨d, hd, ?_⟩
  intro h
  rw [mem_invokesOf, hi, List.mem_filter]
  simp

/-- C1: after any successful run of an idle effect handle on a
well-formed runtime — its creation run or any re-run — the handle is
registered in a cell's subscriber set if and only if that run read the
cell (an `Ev.read` event of the run's log delta), and its dependency
record mirrors exactly the same set of cells: the record is cleared
before the callback executes and repopulated only by the run's own
reads, so a conditional branch not taken leaves no stale subscription. -/
theorem c1_subscriptions_mirror_reads (f : ℕ) (h : HId) (s s' : St)
    (hwf : WF s) (hidle : (s.handles h).running = false)
    (hrun : runReq f (Req.exec h) s = some s') :
    ∃ d, s'.log = s.log ++ d ∧
      (∀ c, h ∈ (s'.cells c).subscribers ↔ Ev.read h c ∈ d) ∧
      (∀ c, c ∈ (s'.handles h).dependencies ↔ Ev.read h c ∈ d) := by
  match f with
  | 0 => simp [runReq] at hrun
  | f + 1 =>
      simp only [runReq] at hrun
      split at hrun
      · rename_i hguard
        rw [hidle] at hguard
        exact Bool.noConfusion hguard
      · rcases h1 : runReq f (.cmds (s.handles h).body)
            { setRunning h true (cleanup h s) with
              effectStack := h :: (cleanup h s).effectStack
              log := (cleanup h s).log ++ [Ev.run h] } with _ | s3 <;>
          rw [h1] at hrun
        · simp at hrun
        · rw [Option.map_some'] at hrun
          simp only [Option.some.injEq] at hrun
          subst hrun
          have hwf2 : WF ({ setRunning h true (cleanup h s) with
              effectStack := h :: (cleanup h s).effectStack
              log := (cleanup h s).log ++ [Ev.run h] } : St) :=
            setRunning_WF h true (cleanup h s) (cleanup_WF h s hwf)
          have hrunning2 : (({ setRunning h true (cleanup h s) with
              effectStack := h :: (cleanup h s).effectStack
              log := (cleanup h s).log ++ [Ev.run h] } : St).handles h).running = true := by
            simp [setRunning]
          have hhead2 : (({ setRunning h true (cleanup h s) with
              effectStack := h :: (cleanup h s).effectStack
              log := (cleanup h s).log ++ [Ev.run h] } : St).effectStack.head?) = some h := rfl
          obtain ⟨d1, hd1, hsub1, hdep1⟩ :=
            body_reads f (.cmds (s.handles h).body) _ s3 h h1 trivial
              hrunning2 hhead2 hwf2
          have hdeps2 : (({ setRunning h true (cleanup h s) with
              effectStack := h :: (cleanup h s).effectStack
              log := (cleanup h s).log ++ [Ev.run h] } : St).handles h).dependencies = [] := by
            simp [setRunning, cleanup]
          refine ⟨Ev.run h :: d1, ?_, ?_, ?_⟩
          · simp only [setRunning]
            rw [hd1]
            simp [cleanup]
          · intro c
            have hnot : h ∉ (({ setRunning h true (cleanup h s) with
                effectStack := h :: (cleanup h s).effectStack
                log := (cleanup h s).log ++ [Ev.run h] } : St).cells c).subscribers :=
              cleanup_unsub h s hwf c
            show h ∈ (s3.cells c).subscribers ↔ Ev.read h c ∈ (Ev.run h :: d1)
            rw [hsub1 c]
            simp only [List.mem_cons]
            constructor
            · rintro (hmem | hmem)
              · exact absurd hmem hnot
              · exact Or.inr hmem
            · rintro (hmem | hmem)
              · exact Ev.noConfusion hmem
              · exact Or.inr hmem
          · intro c
            have hfin : ((setRunning h false
                { s3 with effectStack := s3.effectStack.tail }).handles h).dependencies =
                (s3.handles h).dependencies := by
              simp [setRunning]
            rw [hfin, hdep1 c, hdeps2]
            simp only [List.mem_cons, List.not_mem_nil, false_or]
            constructor
            · exact Or.inr
            · rintro (hmem | hmem)
              · exact Ev.noConfusion hmem
              · exact hmem

/-- Witness for C1, the dependency-shrink scenario: re-running the
effect of `c1s0` while cell 0 holds `prim 0` reads only cell 0; after
the run the handle is subscribed to cell 0 and — although the previous
run had subscribed it to cell 1 — no longer to cell 1. -/
theorem c1_subscriptions_mirror_reads_witness :
    WF c1s0 ∧ (c1s0.handles 0).running = false ∧
    (∃ s', runReq 10 (Req.exec 0) c1s0 = some s' ∧
      (∃ d, s'.log = c1s0.log ++ d ∧
        (∀ c, 0 ∈ (s'.cells c).subscribers ↔ Ev.read 0 c ∈ d) ∧
        (∀ c, c ∈ (s'.handles 0).dependencies ↔ Ev.read 0 c ∈ d)) ∧
      0 ∈ (s'.cells 0).subscribers ∧ 0 ∉ (s'.cells 1).subscribers) := by
  have hwf : WF c1s0 := by
    refine ⟨?_, ?_, ?_⟩
    · intro h c hmem
      simp only [c1s0] at hmem ⊢
      by_cases hc0 : c = 0
      · subst hc0
        rw [if_pos rfl] at hmem
        simp only [List.mem_singleton] at hmem
        subst hmem
        decide
      · rw [if_neg hc0] at hmem
        by_cases hc1 : c = 1
        · subst hc1
          rw [if_pos rfl] at hmem
          simp only [List.mem_singleton] at hmem
          subst hmem
          decide
        · rw [if_neg hc1] at hmem
          simp at hmem
    · intro c
      simp only [c1s0]
      by_cases hc0 : c = 0
      · rw [if_pos hc0]
        decide
      · rw [if_neg hc0]
        by_cases hc1 : c = 1
        · rw [if_pos hc1]
          decide
        · rw [if_neg hc1]
          exact List.nodup_nil
    · intro h
      simp only [c1s0]
      by_cases hh0 : h = 0
      · rw [if_pos hh0]
        decide
      · rw [if_neg hh0]
        exact List.nodup_nil
  refine ⟨hwf, by decide, ⟨_, rfl, ?_, by decide, by decide⟩⟩
  exact c1_subscriptions_mirror_reads 10 0 c1s0 _ hwf (by decide) rfl

/-- Witness for C10: a value-changing write to a signal with the two
idle subscribers 0 and 1 invokes exactly those two. -/
theorem c10_snapshot_notification_witness :
    ∃ s', runReq 10 (Req.write 0 (Upd.val (Val.prim 5))) c2s0 = some s' ∧
      ∃ d, s'.log = c2s0.log ++ d ∧
        ∀ h, Ev.invoke c2s0.writeCount h ∈ d ↔
          (h ∈ (c2s0.cells 0).subscribers ∧ (c2s0.handles h).running = false) :=
  ⟨_, rfl, c10_snapshot_notification 10 0 (Upd.val (Val.prim 5)) c2s0 _ rfl (by decide)⟩

/-- C4 counterexample: an effect that reads cell 0 and then writes it
runs exactly once — but the skipped notification produces **no**
diagnostic warning: the full log of the run is
`[run 0, read 0 0, store 0 1]`, with one `Ev.run 0` and no `Ev.warn`
event at all, refuting the claim's "the notification to the currently
running handle is skipped (with a diagnostic warning)" — the
`write`-path guard (`if (!fn.running) fn()`) skips silently, and the
`console.warn` in `execute` is not reached. -/
theorem c4_counterexample_silent_skip :
    (runReq 10 (Req.exec 0) c4s0).map St.log =
      some [Ev.run 0, Ev.read 0 0, Ev.store 0 (Val.prim 1)] ∧
    Ev.warn 0 ∉ [Ev.run 0, Ev.read 0 0, Ev.store 0 (Val.prim 1)] ∧
    [Ev.run 0, Ev.read 0 0, Ev.store 0 (Val.prim 1)].count (Ev.run 0) = 1 := by
  refine ⟨by decide, by decide, by decide⟩

/-- C4 (amended): while a handle's callback is executing, a write to a
cell it subscribes to does not re-enter it — the write loop's
re-entrancy guard skips the notification, **silently** (no diagnostic is
emitted on this path; the handle-level guard that would warn is only
reached by invoking the handle directly, in which case it warns and
returns with the state otherwise untouched).  So an effect that writes
to a cell it also reads runs exactly once per trigger and never recurses
into itself. -/
theorem c4_no_self_reentry (f : ℕ) (h : HId) (s : St)
    (hrunning : (s.handles h).running = true) :
    (∀ (c : CId) (u : Upd) (s' : St), runReq f (Req.write c u) s = some s' →
      ∃ d, s'.log = s.log ++ d ∧ Ev.run h ∉ d ∧ Ev.warn h ∉ d) ∧
    (∀ s', runReq f (Req.exec h) s = some s' →
      s' = { s with log := s.log ++ [Ev.warn h] }) := by
  constructor
  · intro c u s' hrun
    obtain ⟨d, hd, -, -, -, hrn, hwn⟩ :=
      runReq_frame f (Req.write c u) s s' h hrun hrunning trivial
    exact ⟨d, hd, hrn, fun hm => Req.noConfusion (hwn hm)⟩
  · intro s' hrun
    match f with
    | 0 => simp [runReq] at hrun
    | f + 1 =>
        simp only [runReq, hrunning, if_true, Option.some.injEq] at hrun
        exact hrun.symm

/-- Witness for C4: from a snapshot with handle 0 mid-execution and
subscribed to cell 0, a value-changing write to cell 0 completes without
ever re-running handle 0 (and without a warning), and a direct
invocation is skipped with only the diagnostic logged. -/
theorem c4_no_self_reentry_witness :
    (c4w0.handles 0).running = true ∧
    (∃ s', runReq 10 (Req.write 0 (Upd.val (Val.prim 1))) c4w0 = some s' ∧
      ∃ d, s'.log = c4w0.log ++ d ∧ Ev.run 0 ∉ d ∧ Ev.warn 0 ∉ d) ∧
    (∃ s', runReq 10 (Req.exec 0) c4w0 = some s' ∧
      s' = { c4w0 with log := c4w0.log ++ [Ev.warn 0] }) :=
  ⟨by decide,
    ⟨_, rfl, (c4_no_self_reentry 10 0 c4w0 (by decide)).1 0 (Upd.val (Val.prim 1)) _ rfl⟩,
    ⟨_, rfl, (c4_no_self_reentry 10 0 c4w0 (by decide)).2 _ rfl⟩⟩

/-- C9 (code bug): with the scroll offset unchanged —
`container.scrollTop` equal to the value already stored in the
scroll-offset signal — `refresh()` is a no-op: the write compares the
identical value, stores nothing, and invokes no subscriber, so the
rendering effect (handle 0) does not re-run and the windowed region is
not re-rendered, contradicting "refresh() forces a recomputation ...
even when the scroll offset has not changed". -/
theorem c9_refresh_noop_when_offset_unchanged :
    runReq 10 (refreshReq 0 0) c9s0 = some c9s0 := rfl

/-- C5: for every virtual list with item height and container height
positive, after a run of the rendering effect the cache holds only
indices inside the current visible range, its size is at most
`⌈containerHeight/itemHeight⌉ + 2·buffer` — independent of the item
count — and the node of every index outside the range has been removed
from both the cache and the display tree.  The hypotheses are the
state invariants the effect itself maintains: cache keys unique,
display-tree children unique, cached nodes allocated below the
node counter. -/
theorem c5_window_bound
    (itemHeight containerHeight buffer scrollTop : ℕ) (items : List Val) (s : VLState)
    (hH : 0 < itemHeight) (hV : 0 < containerHeight)
    (hkeys : (s.renderedNodes.map Prod.fst).Nodup)
    (hcontent : s.content.Nodup)
    (hbound : ∀ p ∈ s.renderedNodes, p.2.node < s.nextNode) :
    let r := visibleRange items.length scrollTop itemHeight containerHeight buffer
    let s2 := renderPass itemHeight containerHeight buffer items scrollTop s
    (∀ p ∈ s2.renderedNodes, r.startIndex ≤ p.1 ∧ p.1 < r.endIndex) ∧
    (s2.renderedNodes.length : ℤ) ≤
      ⌈(containerHeight : ℚ) / (itemHeight : ℚ)⌉ + 2 * (buffer : ℤ) ∧
    (∀ p ∈ s.renderedNodes, (p.1 < r.startIndex ∨ r.endIndex ≤ p.1) →
      p.2.node ∉ s2.content) := by
  intro r s2
  have hrs : r = visibleRange items.length scrollTop itemHeight containerHeight buffer := rfl
  set toRemove := (s.renderedNodes.map Prod.fst).filter
    (fun i => decide (i < r.startIndex ∨ r.endIndex ≤ i)) with htoRemove
  set s1 := removeIndices toRemove s with hs1
  have hs2 : s2 = (idxList r.startIndex r.endIndex).foldl
      (fun t i => renderOne items i t) s1 := rfl
  obtain ⟨hsub1, hsub2, hnn⟩ := removeIndices_frame toRemove s
  obtain ⟨hf1, hf2, hf3, hf4⟩ := foldRender_spec items (idxList r.startIndex r.endIndex) s1
  rw [← hs2] at hf1 hf2 hf3 hf4
  have hkeys1 : (s1.renderedNodes.map Prod.fst).Nodup :=
    hkeys.sublist (hsub1.map Prod.fst)
  -- any index outside the range with a cache entry in `s` is gone from `s1`
  have hgone : ∀ p ∈ s.renderedNodes, (p.1 < r.startIndex ∨ r.endIndex ≤ p.1) →
      p.1 ∉ (s1.renderedNodes.map Prod.fst) ∧ p.2.node ∉ s1.content := by
    intro p hp hout
    have hget : getA p.1 s.renderedNodes = some p.2 :=
      getA_eq_of_mem p.1 p.2 s.renderedNodes hkeys (by simpa using hp)
    have hmem : p.1 ∈ toRemove := by
      rw [htoRemove]
      refine List.mem_filter.2 ⟨List.mem_map.2 ⟨p, hp, rfl⟩, by simpa using hout⟩
    exact removeIndices_removes toRemove s hkeys hcontent p.1 hmem p.2 hget
  -- first conjunct: all cache keys lie inside the range
  have hin : ∀ p ∈ s2.renderedNodes, r.startIndex ≤ p.1 ∧ p.1 < r.endIndex := by
    intro p hp
    have hj : p.1 ∈ (s2.renderedNodes.map Prod.fst) := List.mem_map.2 ⟨p, hp, rfl⟩
    rcases hf1 p.1 hj with h1 | h1
    · by_contra hcon
      have hout : p.1 < r.startIndex ∨ r.endIndex ≤ p.1 := by omega
      obtain ⟨q, hq, hq1⟩ := List.mem_map.1 ((hsub1.map Prod.fst).mem h1)
      have := (hgone q hq (hq1 ▸ hout)).1
      exact this (hq1 ▸ h1)
    · exact idxList_mem_bounds _ _ _ h1
  refine ⟨hin, ?_, ?_⟩
  · -- the length bound
    have hnodup2 : (s2.renderedNodes.map Prod.fst).Nodup := hf2 hkeys1
    have hlen : (s2.renderedNodes.map Prod.fst).length ≤
        (r.endIndex - r.startIndex).toNat := by
      refine length_le_toNat_of_nodup _ _ _ hnodup2 ?_
      intro x hx
      obtain ⟨p, hp, rfl⟩ := List.mem_map.1 hx
      exact hin p hp
    rw [List.length_map] at hlen
    have hvc : 0 ≤ ⌈(containerHeight : ℚ) / (itemHeight : ℚ)⌉ :=
      Int.ceil_nonneg (by positivity)
    have hfv : 0 ≤ ⌊(scrollTop : ℚ) / (itemHeight : ℚ)⌋ :=
      Int.floor_nonneg.mpr (by positivity)
    have hstart : r.startIndex =
        max 0 (⌊(scrollTop : ℚ) / (itemHeight : ℚ)⌋ - (buffer : ℤ)) := rfl
    have hend : r.endIndex = min ((items.length : ℤ))
        (⌊(scrollTop : ℚ) / (itemHeight : ℚ)⌋ +
          ⌈(containerHeight : ℚ) / (itemHeight : ℚ)⌉ + (buffer : ℤ)) := rfl
    omega
  · -- stale nodes are out of the display tree
    intro p hp hout
    have h1 := (hgone p hp hout).2
    have h2 : p.2.node < s1.nextNode := by
      rw [hnn]
      exact hbound p hp
    exact hf4 p.2.node h2 h1

/-- Witness for C5: the window-bound theorem applied to a freshly
created list of 20 items with itemHeight 60, containerHeight 400,
buffer 5 at offset 0. -/
theorem c5_window_bound_witness :
    (0 : ℕ) < 60 ∧ (0 : ℕ) < 400 ∧
    (let r := visibleRange c5items.length 0 60 400 5
     let s2 := renderPass 60 400 5 c5items 0 c5s0
     (∀ p ∈ s2.renderedNodes, r.startIndex ≤ p.1 ∧ p.1 < r.endIndex) ∧
     (s2.renderedNodes.length : ℤ) ≤
       ⌈(400 : ℚ) / (60 : ℚ)⌉ + 2 * ((5 : ℕ) : ℤ) ∧
     (∀ p ∈ c5s0.renderedNodes, (p.1 < r.startIndex ∨ r.endIndex ≤ p.1) →
       p.2.node ∉ s2.content)) :=
  ⟨by decide, by decide,
    c5_window_bound 60 400 5 0 c5items c5s0 (by decide) (by decide)
      (by decide) (by decide) (by decide)⟩

/-! ## Claims about the visible range and construction -/

/-- C6: the virtual list's visible range is a pure function of offset,
item height, container height, buffer and item count, equal to the
reference definition `[max(0, ⌊offset/itemSize⌋ − buffer), min(count,
⌊offset/itemSize⌋ + ⌈viewportSize/itemSize⌉ + buffer)]`; with 10000
items, itemSize 60, viewportSize 400 and buffer 5, offset 0 yields
`[0, 12]` and offset 6000 yields `[95, 112]`. -/
theorem c6_visibleRange_eq_reference :
    (∀ count offset itemSize viewportSize buffer : ℕ,
        visibleRange count offset itemSize viewportSize buffer =
          visibleRangeSpec count offset itemSize viewportSize buffer) ∧
    visibleRange 10000 0 60 400 5 = ⟨0, 12⟩ ∧
    visibleRange 10000 6000 60 400 5 = ⟨95, 112⟩ := by
  refine ⟨fun _ _ _ _ _ => rfl, ?_, ?_⟩ <;> rw [visibleRange_eval] <;> decide

/-- C7 counterexample: when the item count shrinks to 0 while the scroll
offset stays at 6000 (itemSize 60, viewportSize 400, buffer 5), the
returned range is `{ startIndex := 95, endIndex := 0 }`: the start index
exceeds the end index, refuting "its start index is always less than or
equal to its end index". -/
theorem c7_counterexample_start_gt_end :
    visibleRange 0 6000 60 400 5 = ⟨95, 0⟩ ∧
    ¬ (visibleRange 0 6000 60 400 5).startIndex ≤ (visibleRange 0 6000 60 400 5).endIndex := by
  rw [visibleRange_eval]
  exact ⟨rfl, by decide⟩

/-- C7 (amended): `visibleRange` clamps its start index below by 0 and
its end index above by the item count, but does not clamp the start
index to the item count; consequently the range is non-negative in
length exactly when the (clamped) start index still lies within the item
count — when the count shrinks below the start index the range
degenerates with `startIndex > endIndex` (and the render loop over
`[startIndex, endIndex)` renders nothing). -/
theorem c7_start_le_end_iff_start_le_count
    (count offset itemSize viewportSize buffer : ℕ) :
    ((visibleRange count offset itemSize viewportSize buffer).startIndex ≤
        (visibleRange count offset itemSize viewportSize buffer).endIndex) ↔
      (visibleRange count offset itemSize viewportSize buffer).startIndex ≤ (count : ℤ) := by
  have hfv : 0 ≤ ⌊(offset : ℚ) / (itemSize : ℚ)⌋ :=
    Int.floor_nonneg.mpr (by positivity)
  have hvc : 0 ≤ ⌈(viewportSize : ℚ) / (itemSize : ℚ)⌉ :=
    Int.ceil_nonneg (by positivity)
  simp only [visibleRange]
  constructor
  · intro hle
    exact le_trans hle (min_le_left _ _)
  · intro hle
    refine le_min hle ?_
    have hb : (0 : ℤ) ≤ (buffer : ℤ) := by positivity
    omega

/-- C8 counterexample: an options object with `itemHeight = 0` (and no
`buffer`) is accepted — construction returns a configuration (with the
buffer defaulted to 5) instead of failing, refuting "construction fails
for every options object with a non-positive itemHeight or
containerHeight". -/
theorem c8_counterexample_zero_itemHeight_accepted :
    createVirtualListConstruct ⟨0, 400, none⟩ = Except.ok ⟨0, 400, 5⟩ := rfl

/-- C8 (amended): `createVirtualList` performs no validation at
construction: for every options object — non-positive `itemHeight` or
`containerHeight` included — construction succeeds, returning the
destructured configuration with `buffer` defaulting to 5. -/
theorem c8_construction_never_fails (options : VLOptions) :
    createVirtualListConstruct options =
      Except.ok ⟨options.itemHeight, options.containerHeight, options.buffer.getD 5⟩ := rfl

/-! ## Claim about the keyed list reconciler -/

/-- C3: for every reconciliation pass of `list()` on a new input
sequence whose keys under `keyFn` are pairwise distinct, run from a
well-formed mounted state — the start marker mounted, the children
duplicate-free and split as `P ++ startM :: (R ++ endM :: Q)` with the
managed region `R` holding exactly the mapped nodes, the map's keys
and node identities duplicate-free, and every recorded node and child
below the node counter — after the pass the key-to-node mapping is
keyed exactly by the new key sequence in order, the node sequence
between the markers equals, in order, the node mapped to each new key,
and every stale key's node is detached from the children. -/
theorem c3_reconcile_postcondition
    (keyFn : Val → Val) (startM endM : ℕ) (items : List Val)
    (s : ListState) (P R Q : List ℕ)
    (hkeys : (items.map keyFn).Nodup)
    (hch : s.children = P ++ startM :: (R ++ endM :: Q))
    (hchnodup : s.children.Nodup)
    (hkeysnodup : (s.keyToNode.map Prod.fst).Nodup)
    (hnodesnodup : (s.keyToNode.map (fun p => p.2.node)).Nodup)
    (hR : ∀ n, n ∈ R ↔ n ∈ s.keyToNode.map (fun p => p.2.node))
    (hbound : ∀ p ∈ s.keyToNode, p.2.node < s.nextNode)
    (hchbound : ∀ n ∈ s.children, n < s.nextNode) :
    (reconcile keyFn startM items s).keyToNode.map Prod.fst = items.map keyFn ∧
    (reconcile keyFn startM items s).children =
      P ++ startM :: ((reconcile keyFn startM items s).keyToNode.map
        (fun p => p.2.node) ++ endM :: Q) ∧
    (∀ p ∈ s.keyToNode, p.1 ∉ items.map keyFn →
      p.2.node ∉ (reconcile keyFn startM items s).children) := by
  have hmem : startM ∈ s.children := by rw [hch]; simp
  have hchnodup' : (P ++ startM :: (R ++ endM :: Q)).Nodup := hch ▸ hchnodup
  obtain ⟨hm1, hc1, hn1⟩ := removeStale_spec (items.map keyFn) s.keyToNode s []
    (by simp) (by simpa using hkeysnodup) (by simp)
  rw [List.nil_append] at hm1
  have hnsR : ∀ n ∈ (s.keyToNode.filter
      (fun p => !decide (p.1 ∈ items.map keyFn))).map (fun p => p.2.node), n ∈ R := by
    intro n hn
    obtain ⟨p, hp, hpn⟩ := List.mem_map.1 hn
    rw [hR]
    exact List.mem_map.2 ⟨p, List.mem_of_mem_filter hp, hpn⟩
  have hnsnodup : ((s.keyToNode.filter
      (fun p => !decide (p.1 ∈ items.map keyFn))).map (fun p => p.2.node)).Nodup :=
    hnodesnodup.sublist ((List.filter_sublist _).map _)
  have hc1' : (removeStale (items.map keyFn) s.keyToNode s).children =
      P ++ startM :: ((((s.keyToNode.filter
        (fun p => !decide (p.1 ∈ items.map keyFn))).map
          (fun p => p.2.node)).foldl (fun r n => r.erase n) R) ++ endM :: Q) := by
    rw [hc1, hch]
    exact foldl_erase_split startM endM _ P Q R hnsR hchnodup' hnsnodup
  have hRnodup : R.Nodup := by
    have h := hchnodup'
    rw [List.nodup_append, List.nodup_cons, List.nodup_append] at h
    exact h.2.1.2.1
  have hstartP : startM ∉ P := by
    have h := hchnodup'
    rw [List.nodup_append] at h
    intro hcon
    exact h.2.2 hcon (by simp)
  have hRonly : ∀ n ∈ R, n ∉ P ∧ n ≠ startM ∧ n ≠ endM ∧ n ∉ Q := by
    intro n hn
    have h := hchnodup'
    rw [List.nodup_append, List.nodup_cons, List.nodup_append] at h
    obtain ⟨hP, ⟨hsM, hRn, hEQn, hdisj2⟩, hdisjP⟩ := h
    refine ⟨?_, ?_, ?_, ?_⟩
    · intro hcon
      exact hdisjP hcon (List.mem_cons.2 (Or.inr (List.mem_append.2 (Or.inl hn))))
    · intro hcon
      exact hsM (hcon ▸ (List.mem_append.2 (Or.inl hn)))
    · intro hcon
      refine hdisj2 hn ?_
      rw [hcon]
      simp
    · intro hcon
      exact hdisj2 hn (List.mem_cons.2 (Or.inr hcon))
  have hm1keys : (((removeStale (items.map keyFn) s.keyToNode s).keyToNode).map
      Prod.fst).Nodup := by
    rw [hm1]
    exact hkeysnodup.sublist ((List.filter_sublist _).map _)
  have hm1nodes : (((removeStale (items.map keyFn) s.keyToNode s).keyToNode).map
      (fun p => p.2.node)).Nodup := by
    rw [hm1]
    exact hnodesnodup.sublist ((List.filter_sublist _).map _)
  have hm1bound : ∀ p ∈ (removeStale (items.map keyFn) s.keyToNode s).keyToNode,
      p.2.node < (removeStale (items.map keyFn) s.keyToNode s).nextNode := by
    rw [hm1, hn1]
    intro p hp
    exact hbound p (List.mem_of_mem_filter hp)
  have hreg : ∀ n, n ∈ (((s.keyToNode.filter
      (fun p => !decide (p.1 ∈ items.map keyFn))).map (fun p => p.2.node)).foldl
        (fun r n => r.erase n) R) ↔
      n ∈ ((removeStale (items.map keyFn) s.keyToNode s).keyToNode).map
        (fun p => p.2.node) := by
    intro n
    rw [foldl_erase_mem _ R hRnodup n, hm1]
    constructor
    · rintro ⟨hnR, hnns⟩
      rw [hR] at hnR
      obtain ⟨p, hp, hpn⟩ := List.mem_map.1 hnR
      have hkept : (fun p => decide (p.1 ∈ items.map keyFn)) p = true := by
        by_contra hcon
        refine hnns (List.mem_map.2 ⟨p, List.mem_filter.2 ⟨hp, ?_⟩, hpn⟩)
        simpa using hcon
      exact List.mem_map.2 ⟨p, List.mem_filter.2 ⟨hp, hkept⟩, hpn⟩
    · intro hmm
      obtain ⟨p, hp, hpn⟩ := List.mem_map.1 hmm
      have hps : p ∈ s.keyToNode := List.mem_of_mem_filter hp
      have hkept := List.of_mem_filter hp
      constructor
      · rw [hR]
        exact List.mem_map.2 ⟨p, hps, hpn⟩
      · intro hcon
        obtain ⟨p2, hp2, hp2n⟩ := List.mem_map.1 hcon
        have hp2s : p2 ∈ s.keyToNode := List.mem_of_mem_filter hp2
        have hpeq : p2 = p := by
          refine nodup_map_inj (fun p => p.2.node) s.keyToNode hnodesnodup p2 hp2s
            p hps ?_
          show p2.2.node = p.2.node
          have ha : p2.2.node = n := hp2n
          have hb2 : p.2.node = n := hpn
          rw [ha, hb2]
        have hstale := List.of_mem_filter hp2
        rw [hpeq] at hstale
        have hkept2 : decide (p.1 ∈ items.map keyFn) = true := hkept
        have hstale2 : (!decide (p.1 ∈ items.map keyFn)) = true := hstale
        rw [hkept2] at hstale2
        exact absurd hstale2 (by decide)
  have hs1nodup : (P ++ startM :: ((((s.keyToNode.filter
      (fun p => !decide (p.1 ∈ items.map keyFn))).map
        (fun p => p.2.node)).foldl (fun r n => r.erase n) R) ++ endM :: Q)).Nodup := by
    rw [← hc1', hc1]
    exact hchnodup.sublist (foldl_erase_sublist _ _)
  have hs1bound : ∀ n ∈ P ++ startM :: ((((s.keyToNode.filter
      (fun p => !decide (p.1 ∈ items.map keyFn))).map
        (fun p => p.2.node)).foldl (fun r n => r.erase n) R) ++ endM :: Q),
      n < (removeStale (items.map keyFn) s.keyToNode s).nextNode := by
    rw [← hc1', hc1, hn1]
    intro n hn
    exact hchbound n ((foldl_erase_sublist _ _).mem hn)
  have hm1keysNK : ∀ p ∈ (removeStale (items.map keyFn) s.keyToNode s).keyToNode,
      p.1 ∈ items.map keyFn := by
    rw [hm1]
    intro p hp
    have h := List.of_mem_filter hp
    simpa using h
  obtain ⟨hA1, hA2, hA3⟩ := buildReposition_spec keyFn startM endM items
    (removeStale (items.map keyFn) s.keyToNode s).keyToNode
    (removeStale (items.map keyFn) s.keyToNode s).nextNode
    (((s.keyToNode.filter (fun p => !decide (p.1 ∈ items.map keyFn))).map
      (fun p => p.2.node)).foldl (fun r n => r.erase n) R) P Q
    hkeys hm1keys hm1nodes hm1bound hreg hs1nodup hs1bound hm1keysNK
  simp only [List.append_assoc, List.singleton_append] at hA2
  simp only [reconcile]
  rw [if_pos hmem]
  dsimp only
  refine ⟨hA1, ?_, ?_⟩
  · rw [hc1', nextSibling_split startM P _ hstartP]
    exact hA2
  · intro p hp hstale
    rw [hc1', nextSibling_split startM P _ hstartP, hA2]
    have hnR2 : p.2.node ∈ R := by
      rw [hR]
      exact List.mem_map.2 ⟨p, hp, rfl⟩
    obtain ⟨hnP, hnsM, hnE, hnQ⟩ := hRonly p.2.node hnR2
    have hnB : p.2.node ∉ (buildNew
        (removeStale (items.map keyFn) s.keyToNode s).keyToNode
        (items.zip (items.map keyFn)) []
        (removeStale (items.map keyFn) s.keyToNode s).nextNode).1.map
          (fun p => p.2.node) := by
      refine hA3 p.2.node ?_ ?_
      · rw [hn1]
        exact hbound p hp
      · rw [hm1]
        intro hcon
        obtain ⟨p2, hp2, hp2n⟩ := List.mem_map.1 hcon
        have hp2s := List.mem_of_mem_filter hp2
        have hpeq : p2 = p := by
          refine nodup_map_inj (fun p => p.2.node) s.keyToNode hnodesnodup p2 hp2s
            p hp ?_
          exact hp2n
        have hkept := List.of_mem_filter hp2
        rw [hpeq] at hkept
        have hkept2 : decide (p.1 ∈ items.map keyFn) = true := hkept
        exact hstale (of_decide_eq_true hkept2)
    intro hcon
    rcases List.mem_append.1 hcon with hc | hc
    · exact hnP hc
    · rcases List.mem_cons.1 hc with hc2 | hc2
      · exact hnsM hc2
      · rcases List.mem_append.1 hc2 with hc3 | hc3
        · exact hnB hc3
        · rcases List.mem_cons.1 hc3 with hc4 | hc4
          · exact hnE hc4
          · exact hnQ hc4

/-- C3 witness: reconciling the mounted two-row state `tLS` (keys 1, 2
between markers 0 and 1) against the new items `[2, 3]` under the
identity key function: the map is rekeyed to `[2, 3]` in order, the
region between the markers holds exactly the mapped nodes in key
order, and the stale key 1's node is detached. -/
theorem c3_reconcile_postcondition_witness :
    (reconcile (fun v => v) 0 [Val.prim 2, Val.prim 3] tLS).keyToNode.map Prod.fst =
      [Val.prim 2, Val.prim 3].map (fun v => v) ∧
    (reconcile (fun v => v) 0 [Val.prim 2, Val.prim 3] tLS).children =
      [] ++ 0 :: ((reconcile (fun v => v) 0 [Val.prim 2, Val.prim 3] tLS).keyToNode.map
        (fun p => p.2.node) ++ 1 :: []) ∧
    (∀ p ∈ tLS.keyToNode, p.1 ∉ [Val.prim 2, Val.prim 3].map (fun v => v) →
      p.2.node ∉ (reconcile (fun v => v) 0 [Val.prim 2, Val.prim 3] tLS).children) :=
  c3_reconcile_postcondition (fun v => v) 0 1 [Val.prim 2, Val.prim 3] tLS [] [2, 3] []
    (by decide) rfl (by decide) (by decide) (by decide) (fun n => Iff.rfl)
    (by decide) (by decide)

end DotJs
